import Mathlib

/-!
Shallow embedding of the `Attribute` class of `ds4ml/attribute.py` (repository
`data-synthesis-for-machine-learning`), together with proofs settling the
claims of the specification against it.

Modelling conventions:

* Python floats are modelled as exact rationals (`ℚ`).  The spec's "small
  numeric tolerance" statements become exact equalities in this model.
* A pandas `Series` of raw values is modelled as a Lean `List`; a possibly
  missing entry is an `Option`.
* Fallible Python operations (`ZeroDivisionError`, `KeyError`, `IndexError`,
  the `ValueError` raised by `encode`, attribute access on a never-assigned
  field, numpy input validation) are modelled with `Except PyError`.
* Randomness is modelled by passing the drawn outcomes explicitly: a histogram
  bin index drawn by `np.random.choice` and a unit-interval draw `u` used by
  `random.uniform(a, b) = a + (b - a) * u`.
* `datetime` values enter the class through `dateutil.parser.parse` and
  `Attribute._to_seconds` and leave through `Attribute._date_formatter`
  (lines 102-107).  These are boundary conversions between display strings
  and the integral epoch seconds on which all arithmetic happens; the
  embedding works directly on the epoch-second values.
-/

namespace Ds4ml

/-- Runtime failures of the embedded Python code paths. -/
inductive PyError where
| zeroDivisionError
| valueError
| keyError
| indexError
| typeError
| attributeError
| emptyData
deriving DecidableEq

/-- The data types an `Attribute` distinguishes after inference
(`attribute.py` lines 71-81): integer, float, string, datetime. -/
inductive AttrType where
| integer
| float
| string
| datetime
deriving DecidableEq

deriving instance DecidableEq for Except

/-- Division with Python's `ZeroDivisionError` made explicit. -/
def safeDiv (a b : ℚ) : Except PyError ℚ :=
  if b = 0 then .error .zeroDivisionError else .ok (a / b)

/-- Python's `int(...)` applied to a float: truncation toward zero. -/
def pyInt (q : ℚ) : ℤ :=
  if q < 0 then -(Int.floor (-q)) else Int.floor q

/-- Rounding half to even, as `numpy`/`pandas` `round()` does on exactly
representable midpoints. -/
def roundHalfEven (q : ℚ) : ℤ :=
  if q - (Int.floor q : ℚ) < 1/2 then Int.floor q
  else if 1/2 < q - (Int.floor q : ℚ) then Int.floor q + 1
  else if Int.floor q % 2 = 0 then Int.floor q else Int.floor q + 1

/-- `column.round(d)`: round half to even at `d` decimal places. -/
def roundToDecimals (q : ℚ) (d : ℕ) : ℚ :=
  ((roundHalfEven (q * 10 ^ d) : ℚ)) / 10 ^ d

/-- `Series.min()` of a nonempty numeric series (imputation has already
removed missing values when the source calls it); `0` on the empty series,
which the source never reaches. -/
def seriesMin (l : List ℚ) : ℚ :=
  match l with
  | [] => 0
  | x :: xs => xs.foldl min x

/-- `Series.max()`, see `seriesMin`. -/
def seriesMax (l : List ℚ) : ℚ :=
  match l with
  | [] => 0
  | x :: xs => xs.foldl max x

/-- Element-wise map with exception propagation, modelling `Series.map` /
`Series.apply` of a function that may raise. -/
def mapExcept (f : β → Except PyError γ) : List β → Except PyError (List γ)
  | [] => .ok []
  | b :: bs =>
    match f b, mapExcept f bs with
    | .ok c, .ok cs => .ok (c :: cs)
    | .error e, _ => .error e
    | .ok _, .error e => .error e

/-- `Series.value_counts()`: pairs of a distinct value with its occurrence
count, sorted by descending count.  pandas leaves the relative order of
equal-count values unspecified; the model keeps first-appearance order (the
theorems below never depend on the order of ties). -/
def value_counts [DecidableEq α] (xs : List α) : List (α × ℕ) :=
  List.insertionSort (fun p q => q.2 ≤ p.2) (xs.dedup.map (fun v => (v, xs.count v)))

/-- `counts.sort_index()`: sort key/count pairs by ascending key. -/
def sortByKey [LinearOrder α] (l : List (α × ℕ)) : List (α × ℕ) :=
  List.insertionSort (fun p q => p.1 ≤ q.1) l

/-- Modelled from the spec: `ds4ml.utils.normalize_distribution` (the module
`ds4ml/utils.py` is not part of the sources).  Per spec section 4.2,
`prs = counts / sum(counts)`; the division is guarded so that a zero total
surfaces as a division failure instead of silently producing junk. -/
def normalize_distribution (freqs : List ℕ) : Except PyError (List ℚ) :=
  if freqs.sum = 0 then .error .zeroDivisionError
  else .ok (freqs.map (fun c : ℕ => (c : ℚ) / ((freqs.sum : ℕ) : ℚ)))

/-- Number of digits after the decimal point that Python's `str()` shows for
a float with an exact short decimal representation: the least `d` with
`q * 10 ^ d` integral, but at least `1` because `str(1.0) = '1.0'` always
shows one fractional digit.  (Floats whose shortest representation needs
more than 17 digits do not appear in the concrete inputs used here.) -/
def decimalsOfValue (q : ℚ) : ℕ :=
  match (List.range 18).find? (fun d => (q * 10 ^ d).den = 1) with
  | some d => Nat.max 1 d
  | none => 17

/-- `Attribute.decimals()` (lines 310-325): tally the per-value decimal digit
counts, then find the smallest prefix of the descending tally covering more
than 80% of the values and return the largest digit count in that prefix. -/
def seriesDecimals (xs : List ℚ) : ℕ :=
  let vc := value_counts (xs.map decimalsOfValue)
  let total : ℚ := ((vc.map Prod.snd).sum : ℕ)
  let slot :=
    match (List.range vc.length).find?
        (fun i => ((((vc.take (i + 1)).map Prod.snd).sum : ℕ) : ℚ) / total > 4/5) with
    | some i => i + 1
    | none => 0
  match ((vc.take slot).map Prod.fst).max? with
  | some d => d
  | none => 0

/-- Default histogram bin count, `DEFAULT_BIN_SIZE = 20` (line 20),
stored as `AttributePattern._bin_size` (line 42). -/
def DEFAULT_BIN_SIZE : ℕ := 20

/-- The pattern state of an `Attribute` (class `AttributePattern`,
lines 23-42, plus the `_counts` and `_step` fields that some methods
assign on `Attribute`).  `bins` is the only field whose element type varies
at runtime (category values for categorical attributes, numeric histogram
edges otherwise), hence the type parameter.  Fields that Python leaves
unassigned until some method writes them (`_counts`, `_step`, `_decimals`)
are `Option`s; reading `none` models Python's `AttributeError`/`TypeError`. -/
structure AttributeState (α : Type) where
  type : AttrType
  categorical : Bool
  min : ℚ
  max : ℚ
  decimals : Option ℕ
  bins : List α
  prs : List ℚ
  counts : Option (List ℕ)
  step : Option ℚ
  bin_size : ℕ
  pattern_generated : Bool
deriving DecidableEq

/-- The serialized pattern record built by `to_pattern` (lines 294-308).
The `name` field of the record plays no role in any claim and is omitted;
`decimals` is `none` exactly when the source stores JSON `null`. -/
structure PatternRecord (α : Type) where
  type : AttrType
  categorical : Bool
  min : ℚ
  max : ℚ
  decimals : Option ℕ
  bins : List α
  prs : List ℚ
deriving DecidableEq

/-- `Attribute.to_pattern` (lines 294-308): dump the derived state into a
plain record.  `decimals` is emitted only for float attributes. -/
def to_pattern (a : AttributeState α) : PatternRecord α :=
  { type := a.type
    categorical := a.categorical
    min := a.min
    max := a.max
    decimals := if a.type = AttrType.float then a.decimals else none
    bins := a.bins
    prs := a.prs }

/-- `Attribute.set_pattern` with a supplied record on a fresh attribute that
has no raw data (lines 119-139, `pattern is not None` branch): the type,
categorical flag, min, max, bins and prs come from the record; `decimals` is
read from the record only for float attributes.  `_counts` and `_step` are
never assigned on this path, and the `pattern_generated` latch is set. -/
def set_pattern (p : PatternRecord α) (_categoricalKw : Bool) : AttributeState α :=
  { type := p.type
    categorical := p.categorical
    min := p.min
    max := p.max
    decimals := if p.type = AttrType.float then p.decimals else none
    bins := p.bins
    prs := p.prs
    counts := none
    step := none
    bin_size := DEFAULT_BIN_SIZE
    pattern_generated := true }

/-- The outer edges `numpy.histogram` uses: a supplied `range=(rmin, rmax)`
with `rmin == rmax` is widened to `(rmin - 0.5, rmax + 0.5)` (numpy
`_get_outer_edges`); `rmax < rmin` raises a `ValueError`. -/
def npOuterEdges (rmin rmax : ℚ) : Except PyError (ℚ × ℚ) :=
  if rmax < rmin then .error .valueError
  else if rmin = rmax then .ok (rmin - 1/2, rmax + 1/2)
  else .ok (rmin, rmax)

/-- Membership of a value in histogram bin `i` of `n` equal-width bins with
left-most edge `first`, width `width` and right-most edge `last`: every bin
is half-open except the last, which is closed on the right (the behaviour
the source quotes in the comment at lines 237-238). -/
def binPred (first width last : ℚ) (n i : ℕ) (v : ℚ) : Bool :=
  decide (first + width * i ≤ v) &&
    (if i = n - 1 then decide (v ≤ last) else decide (v < first + width * (i + 1)))

/-- `numpy.histogram(data, bins=n, range=(rmin, rmax))`: `n + 1` equally
spaced edges over the (possibly widened) outer range and the per-bin counts
of the in-range values.  The edge spacing divides by the outer range width,
which the widening keeps nonzero; the division is guarded to make any
division-by-zero failure explicit. -/
def npHistogram (data : List ℚ) (n : ℕ) (rmin rmax : ℚ) :
    Except PyError (List ℕ × List ℚ) :=
  match npOuterEdges rmin rmax with
  | .error e => .error e
  | .ok fl =>
    match safeDiv (fl.2 - fl.1) (n : ℚ) with
    | .error e => .error e
    | .ok width =>
      let edges := (List.range (n + 1)).map (fun i : ℕ => fl.1 + width * (i : ℚ))
      let hist := (List.range n).map (fun i => data.countP (binPred fl.1 width fl.2 n i))
      .ok (hist, edges)

/-- The non-categorical branch of `_set_domain` followed by
`_set_distribution` (lines 195-250) for an integer, float, or
datetime-as-epoch-seconds attribute: min/max of the data, a histogram of
`_bin_size` bins over `(min, max)`, `bins = edges[:-1]`, raw counts, and the
normalized distribution.  For floats, `_decimals` was computed earlier in
`_calculate_pattern` (lines 90-91).  For integers, min/max are cast back to
`int` after the distribution is built (lines 248-250).  `_step` is
`(max - min) / _bin_size` (lines 215, 223).  An empty series is rejected:
the source would already have crashed on `self.mode()[0]` (line 84). -/
def numericNonCatFromData (t : AttrType) (data : List ℚ) :
    Except PyError (AttributeState ℚ) :=
  if data = [] then .error .emptyData
  else
    let mn := seriesMin data
    let mx := seriesMax data
    match npHistogram data DEFAULT_BIN_SIZE mn mx with
    | .error e => .error e
    | .ok he =>
      match normalize_distribution he.1 with
      | .error e => .error e
      | .ok prs =>
        .ok { type := t
              categorical := false
              min := if t = AttrType.integer then (pyInt mn : ℚ) else mn
              max := if t = AttrType.integer then (pyInt mx : ℚ) else mx
              decimals := if t = AttrType.float then some (seriesDecimals data) else none
              bins := he.2.dropLast
              prs := prs
              counts := some he.1
              step := some ((mx - mn) / (DEFAULT_BIN_SIZE : ℚ))
              bin_size := DEFAULT_BIN_SIZE
              pattern_generated := true }

/-- The non-categorical string branch (lines 199-206 and 239-241): the
histogram is taken over the string lengths `_items`; `_min`/`_max` are the
min/max length.  `np.histogram` is called without `range`, which makes numpy
use the data min/max as the outer range.  No `_step` is assigned on this
path. -/
def stringNonCatFromData (data : List String) : Except PyError (AttributeState ℚ) :=
  if data = [] then .error .emptyData
  else
    let items : List ℚ := data.map (fun s => (s.length : ℚ))
    let mn := seriesMin items
    let mx := seriesMax items
    match npHistogram items DEFAULT_BIN_SIZE mn mx with
    | .error e => .error e
    | .ok he =>
      match normalize_distribution he.1 with
      | .error e => .error e
      | .ok prs =>
        .ok { type := AttrType.string
              categorical := false
              min := mn
              max := mx
              decimals := none
              bins := he.2.dropLast
              prs := prs
              counts := some he.1
              step := none
              bin_size := DEFAULT_BIN_SIZE
              pattern_generated := true }

/-- The categorical branch of `_set_distribution` (lines 226-235): start
from `value_counts()` of the data, add a zero count for every declared bin
value that was never observed (`set(self.bins) - set(counts.index)`; Python
set iteration order is unspecified, which is harmless because the
subsequent `sort_index` fixes the order), sort by key, and read off
`bins = counts.index`, `_counts = counts.values` and the normalized `prs`.
The datetime re-rendering of the index labels (lines 231-232) is a boundary
formatting step not modelled here.  `catPairs` is the key/count table after
the zero-filling and the `sort_index`. -/
def catPairs [LinearOrder α] (data declared : List α) : List (α × ℕ) :=
  sortByKey (value_counts data ++
    (declared.dedup.filter
        (fun b => decide (b ∉ (value_counts data).map Prod.fst))).map
      (fun b => (b, 0)))

/-- The categorical branch of `_set_distribution`, assembled from
`catPairs`: `bins`, `_counts`, and `prs`. -/
def setDistributionCat [LinearOrder α] (data : List α) (declared : List α) :
    Except PyError (List α × List ℕ × List ℚ) :=
  match normalize_distribution ((catPairs data declared).map Prod.snd) with
  | .error e => .error e
  | .ok prs =>
    .ok ((catPairs data declared).map Prod.fst,
         (catPairs data declared).map Prod.snd, prs)

/-- The categorical arm of `_set_domain` plus `_set_distribution`
(lines 195-235) over an arbitrary ordered value type.  `measure` is the
numeric view the source applies before taking `_min`/`_max`: the value
itself for numeric/datetime data (`float(self.min())`), the string length
for string data (`self.astype(str).map(len)`).  `self.unique()` supplies
the declared bins, which `_set_distribution` re-sorts.  For floats,
`_decimals` was already computed in `_calculate_pattern` (lines 90-91). -/
def categoricalFromData [LinearOrder α] (t : AttrType)
    (measure : α → ℚ) (numView : α → ℚ) (data : List α) :
    Except PyError (AttributeState α) :=
  if data = [] then .error .emptyData
  else
    match setDistributionCat data data.dedup with
    | .error e => .error e
    | .ok bcp =>
      .ok { type := t
            categorical := true
            min := seriesMin (data.map measure)
            max := seriesMax (data.map measure)
            decimals := if t = AttrType.float then
                some (seriesDecimals (data.map numView)) else none
            bins := bcp.1
            prs := bcp.2.2
            counts := some bcp.2.1
            step := none
            bin_size := DEFAULT_BIN_SIZE
            pattern_generated := true }

/-- The categorical arm of the `domain` setter (lines 161-193).  The guard
`(is_numerical and categorical and len(domain) > 2) or categorical`
collapses to `categorical`, so a categorical attribute always takes this
branch: `_min`/`_max` become min/max of the supplied domain (through the
same numeric view as `categoricalFromData`; for string-valued categories
the source stores the lexicographic min/max strings, a field no claim
touches), `bins` is set to the domain, and `_set_distribution` rebuilds the
distribution from the raw values still resident in the attribute (`data`).
The datetime parsing of a supplied domain (lines 179-180) is the usual
epoch-second boundary conversion.  The caller must only use this on a
categorical attribute; the non-categorical arms are `domainSetterNumeric`. -/
def domainSetterCat [LinearOrder α] (a : AttributeState α)
    (measure : α → ℚ) (data : List α) (domain : List α) :
    Except PyError (AttributeState α) :=
  match setDistributionCat data domain with
  | .error e => .error e
  | .ok bcp =>
    .ok { a with
          min := seriesMin (domain.map measure)
          max := seriesMax (domain.map measure)
          bins := bcp.1
          prs := bcp.2.2
          counts := some bcp.2.1 }

/-- The numerical non-categorical arm of the `domain` setter
(lines 185-188 plus the `_set_distribution` call at line 193): the domain
must be a two-element `[min, max]` list (the tuple unpacking raises
otherwise), `_step` is recomputed, `bins` becomes `[min, max]`, and
`_set_distribution` rebuilds a `_bin_size`-bin histogram of the resident
raw values over the new range, finally casting `_min`/`_max` back to `int`
for integer attributes (lines 248-250). -/
def domainSetterNumeric (a : AttributeState ℚ) (data : List ℚ) (domain : List ℚ) :
    Except PyError (AttributeState ℚ) :=
  match domain with
  | [mn, mx] =>
    match npHistogram data a.bin_size mn mx with
    | .error e => .error e
    | .ok he =>
      match normalize_distribution he.1 with
      | .error e => .error e
      | .ok prs =>
        .ok { a with
              min := if a.type = AttrType.integer then (pyInt mn : ℚ) else mn
              max := if a.type = AttrType.integer then (pyInt mx : ℚ) else mx
              step := some ((mx - mn) / (a.bin_size : ℚ))
              bins := he.2.dropLast
              prs := prs
              counts := some he.1 }
  | _ => .error .valueError

/-- `bisect.bisect_right(bins, x)`: the insertion point to the right of any
entries equal to `x`.  On a list sorted ascending (the only way the source
calls it — `bins` holds sorted histogram edges) this is the number of
entries that are at most `x`, which is how it is modelled. -/
def bisect_right [LinearOrder α] (l : List α) (x : α) : ℕ :=
  l.countP (fun y => decide (y ≤ x))

/-- The dictionary `{value: idx for idx, value in enumerate(bins)}` of
`bin_indexes` (line 286), looked up at `x`: the last position of `x` in
`bins` (a later duplicate key overwrites an earlier one), or a `KeyError`
if absent. -/
def dictIndex [DecidableEq α] : List α → α → Option ℕ
  | [], _ => none
  | b :: t, x =>
    match dictIndex t x with
    | some i => some (i + 1)
    | none => if b = x then some 0 else none

/-- One element of `Attribute.bin_indexes` (lines 281-292): a missing value
survives `map(..., na_action='ignore')` and is then filled with the
sentinel `len(bins)`; a present value goes through the dictionary lookup
(categorical) or `bisect_right(bins, x) - 1` (non-categorical).  The final
`astype(int)` makes the result integer-typed, hence `ℤ`. -/
def binIndexOne [LinearOrder α] (a : AttributeState α) (o : Option α) :
    Except PyError ℤ :=
  match o with
  | none => .ok (a.bins.length : ℤ)
  | some x =>
    if a.categorical then
      match dictIndex a.bins x with
      | some i => .ok (i : ℤ)
      | none => .error .keyError
    else .ok ((bisect_right a.bins x : ℤ) - 1)

/-- `Attribute.bin_indexes` over the attribute's resident values. -/
def bin_indexes [LinearOrder α] (a : AttributeState α) (data : List (Option α)) :
    Except PyError (List ℤ) :=
  mapExcept (binIndexOne a) data

/-- `Attribute.encode` (lines 414-444) for a single already-numeric value on
a non-categorical, non-string attribute:
`int((v - min) / (step + 1e-8)) / bin_size` (lines 438-441).  Reading the
never-assigned `_step` of a pattern-reconstructed attribute is an
`AttributeError`; the division is guarded.  For datetime attributes the
incoming data has already passed the `_to_seconds` boundary conversion of
lines 426-430. -/
def encodeValue (a : AttributeState α) (v : ℚ) : Except PyError ℚ :=
  match a.step with
  | none => .error .attributeError
  | some s =>
    match safeDiv (v - a.min) (s + 1/100000000) with
    | .error e => .error e
    | .ok t => .ok ((pyInt t : ℚ) / (a.bin_size : ℚ))

/-- The result of `Attribute.encode`: a one-hot indicator table for
categorical attributes (one column per bin value), or a list of normalized
scalars otherwise. -/
inductive EncodeResult (α : Type) where
| onehot (table : List (α × List ℕ))
| scalars (xs : List ℚ)
deriving DecidableEq

/-- `Attribute.encode` (lines 414-444), dispatching as the source does:
categorical → one-hot table over `bins`; non-string → normalized scalars;
non-categorical string → `ValueError`.  `numView` is the numeric reading of
a value used by the scalar branch (the identity once datetime strings have
been parsed to seconds). -/
def encode [DecidableEq α] (a : AttributeState α) (numView : α → ℚ)
    (data : List α) : Except PyError (EncodeResult α) :=
  if a.categorical then
    .ok (.onehot (a.bins.map (fun c => (c, data.map (fun v => if v = c then 1 else 0)))))
  else if a.type ≠ AttrType.string then
    match mapExcept (fun v => encodeValue a (numView v)) data with
    | .error e => .error e
    | .ok xs => .ok (.scalars xs)
  else .error .valueError

/-- `np.arange(start, stop, step)` for a positive step: the
`⌈(stop - start) / step⌉` values `start + i * step`. -/
def npArange (start stop step : ℚ) : List ℚ :=
  (List.range (Int.ceil ((stop - start) / step)).toNat).map
    (fun i => start + step * i)

/-- `Attribute.random` (lines 346-370) for a numeric or datetime attribute,
modelling only the numeric payload (the datetime branch formats each value
through `_date_formatter`, and the string branch materializes random
strings of the drawn lengths; both are boundary renderings).  A degenerate
`min == max` domain short-circuits to a constant vector; otherwise the
spacing divides by `size` (a `ZeroDivisionError` when `size == 0`) and
`np.arange` would reject a zero step.  `np.random.shuffle` permutes the
result in place; the model keeps the unshuffled order, which no claim
observes. -/
def randomModel (a : AttributeState ℚ) (size : ℕ) : Except PyError (List ℚ) :=
  if a.min = a.max then
    let rands := List.replicate size a.min
    match a.type with
    | AttrType.integer => .ok (rands.map (fun q => (pyInt q : ℚ)))
    | _ => .ok rands
  else
    match safeDiv (a.max - a.min) (size : ℚ) with
    | .error e => .error e
    | .ok step =>
      if step = 0 then .error .valueError
      else
        let rands := npArange a.min a.max step
        match a.type with
        | AttrType.string =>
          if a.max ≤ a.min then .error .valueError else .ok rands
        | AttrType.integer => .ok (rands.map (fun q => (pyInt q : ℚ)))
        | _ => .ok rands

/-- `random.uniform(lo, hi)` with the unit draw `u ∈ [0, 1)` made explicit:
`lo + (hi - lo) * u`. -/
def uniformDraw (lo hi u : ℚ) : ℚ :=
  lo + (hi - lo) * u

/-- `Attribute._random_sample_at(index)` (lines 372-381) on a numeric-binned
attribute: the bin value itself if categorical; otherwise a uniform draw
between consecutive bin edges, or between the last edge and `_max` for the
final bin.  Out-of-range indexing is an `IndexError` exactly where Python
would raise one. -/
def randomSampleAt (a : AttributeState ℚ) (u : ℚ) (index : ℕ) :
    Except PyError ℚ :=
  if a.categorical then
    match a.bins[index]? with
    | some b => .ok b
    | none => .error .indexError
  else if index < a.bins.length - 1 then
    match a.bins[index]?, a.bins[index + 1]? with
    | some b1, some b2 => .ok (uniformDraw b1 b2 u)
    | _, _ => .error .indexError
  else
    match a.bins.getLast? with
    | some bl => .ok (uniformDraw bl a.max u)
    | none => .error .indexError

/-- The categorical arm of `_random_sample_at` (lines 374-375) for an
attribute whose bins are category values of an arbitrary type, composed
with the `choice` post-processing that applies to it: for string-typed
categorical attributes the post-processing is a no-op (lines 409-411 only
rewrite non-categorical strings).  Used for the claims about categorical
sampling of non-numeric bins. -/
def randomSampleAtCat (a : AttributeState α) (index : ℕ) : Except PyError α :=
  match a.bins[index]? with
  | some b => .ok b
  | none => .error .indexError

/-- The per-draw body of `Attribute.choice` (lines 383-412) on a
numeric-binned attribute: sample at the drawn `index`, then post-process by
type — float: `round(_decimals)` (a `TypeError` if `_decimals` was never
assigned), integer: `round().astype(int)`, datetime and string: boundary
renderings (`_date_formatter` / `randomize_string`) of the numeric payload,
modelled as the payload itself. -/
def choiceOne (a : AttributeState ℚ) (u : ℚ) (index : ℕ) : Except PyError ℚ :=
  match randomSampleAt a u index with
  | .error e => .error e
  | .ok v =>
    match a.type with
    | AttrType.float =>
      match a.decimals with
      | some d => .ok (roundToDecimals v d)
      | none => .error .typeError
    | AttrType.integer => .ok ((roundHalfEven v : ℤ) : ℚ)
    | _ => .ok v

/-- The input validation of `np.random.choice(n, size=..., p=prs)`
(line 399): `p` must have length `n`, be non-negative, and sum to 1 (exact
in the rational model).  The drawn indices themselves are an input. -/
def npRandomChoice (n : ℕ) (p : List ℚ) (draws : List ℕ) :
    Except PyError (List ℕ) :=
  if p.length ≠ n then .error .valueError
  else if ¬ (p.all (fun q => decide (0 ≤ q))) then .error .valueError
  else if p.sum ≠ 1 then .error .valueError
  else .ok draws

/-- `Attribute.choice(size=None, indexes=None)` (lines 383-412) on a
numeric-binned attribute: draw bin indices according to `prs` (the draws
and the per-draw uniform variates are explicit inputs) and sample each. -/
def choiceModel (a : AttributeState ℚ) (draws : List ℕ) (us : List ℚ) :
    Except PyError (List ℚ) :=
  match npRandomChoice a.prs.length a.prs draws with
  | .error e => .error e
  | .ok idxs => mapExcept (fun p => choiceOne a p.2 p.1) (idxs.zip us)

/-- A raw scalar as it sits in an object-typed pandas column before type
inference: an integer, a float, or a string. -/
inductive RawVal where
| i (n : ℤ)
| f (q : ℚ)
| s (str : String)
deriving DecidableEq

/-- A linear order on raw values used only to fix the tie order pandas
leaves unspecified when it sorts the candidates of `Series.mode()`:
numbers by value then strings, strings lexicographically.  No theorem
depends on this choice (the imputed value is always one of the observed
values, which is all the proofs use). -/
def rawLe : RawVal → RawVal → Bool
  | RawVal.i m, RawVal.i n => decide (m ≤ n)
  | RawVal.i m, RawVal.f q => decide ((m : ℚ) ≤ q)
  | RawVal.f q, RawVal.i n => decide (q ≤ (n : ℚ))
  | RawVal.f p, RawVal.f q => decide (p ≤ q)
  | RawVal.s _, RawVal.i _ => false
  | RawVal.s _, RawVal.f _ => false
  | RawVal.i _, RawVal.s _ => true
  | RawVal.f _, RawVal.s _ => true
  | RawVal.s a, RawVal.s b => decide (a ≤ b)

/-- `self.mode()[0]` (line 84): the most frequent non-missing value, ties
broken by the sort order (`rawLe`); `none` on an empty series, where the
source raises an `IndexError`. -/
def seriesMode (xs : List RawVal) : Option RawVal :=
  let counted := xs.dedup.map (fun v => (v, xs.count v))
  match (counted.map Prod.snd).max? with
  | none => none
  | some mc =>
    (List.insertionSort (fun v w => rawLe v w = true)
      ((counted.filter (fun p => decide (p.2 = mc))).map Prod.fst)).head?

/-- Is a raw value an integer? (`pandas.api.types.infer_dtype` kind). -/
def isIntVal : RawVal → Bool
  | RawVal.i _ => true
  | _ => false

/-- Is a raw value numeric (integer or float)? -/
def isNumVal : RawVal → Bool
  | RawVal.i _ => true
  | RawVal.f _ => true
  | RawVal.s _ => false

/-- The composition of `infer_dtype(self, skipna=True)` with the mapping at
lines 71-81: all integers → integer; numeric with at least one float
(pandas `floating` / `mixed-integer-float`) → float; anything involving a
string (pandas `string` / `mixed-integer` / `mixed`) → string, further
reclassified as datetime when every value passes `utils.is_datetime`.
`is_datetime` lives in `ds4ml/utils.py`, which is not part of the sources,
and is kept abstract as the parameter `isdt`; per spec section 4.1 it tests
whether a value parses as a calendar date/time.  (pandas dtype coercion can
turn an integer column with missing entries into a float column; that only
moves between the two numeric types and no claim distinguishes them.) -/
def inferAttrType (isdt : RawVal → Bool) (xs : List RawVal) : AttrType :=
  if xs.all isIntVal then AttrType.integer
  else if xs.all isNumVal then AttrType.float
  else if xs.all isdt then AttrType.datetime
  else AttrType.string

/-- The front of `Attribute._calculate_pattern` (lines 71-97) as far as the
claims about type and categorical inference reach: infer the type, impute
missing entries with the mode (line 84), then set
`categorical = categorical or (type == 'string' and not is_unique)`
(lines 93-97).  `is_unique` is evaluated on the column as it stands after
imputation (for datetime columns the values have been rewritten to date
strings by line 88, which cannot matter here: the conjunct already requires
the type to be string).  Returns the inferred type, the categorical flag,
and the imputed column. -/
def calcTypeAndCategorical (isdt : RawVal → Bool) (categoricalKw : Bool)
    (data : List (Option RawVal)) :
    Except PyError (AttrType × Bool × List RawVal) :=
  let nonmiss := data.filterMap id
  let t := inferAttrType isdt nonmiss
  match seriesMode nonmiss with
  | none => .error .indexError
  | some m =>
    let filled := data.map (fun o => o.getD m)
    let cat := categoricalKw || (decide (t = AttrType.string) && !(decide filled.Nodup))
    .ok (t, cat, filled)

/-- An inert attribute state used as the default of `getOk`. -/
def emptyState (t : AttrType) : AttributeState α :=
  { type := t
    categorical := false
    min := 0
    max := 0
    decimals := none
    bins := []
    prs := []
    counts := none
    step := none
    bin_size := 0
    pattern_generated := false }

/-- Projection of a fallible construction, for stating concrete instances:
the state on success, an inert dummy on failure. -/
def getOk (r : Except PyError (AttributeState α)) : AttributeState α :=
  match r with
  | .ok a => a
  | .error _ => emptyState AttrType.integer

/-- Projection of a fallible index-list computation, for stating concrete
instances. -/
def getList (r : Except PyError (List ℤ)) : List ℤ :=
  match r with
  | .ok l => l
  | .error _ => []

theorem getOk_spec {r : Except PyError (AttributeState α)}
    (h : r.isOk = true) : r = Except.ok (getOk r) := by
  cases r with
  | ok a => rfl
  | error e => simp [Except.isOk, Except.toBool] at h

theorem foldl_min_le_start : ∀ (xs : List ℚ) (x : ℚ), xs.foldl min x ≤ x
  | [], x => le_refl x
  | y :: ys, x => le_trans (foldl_min_le_start ys (min x y)) (min_le_left x y)

theorem foldl_min_le_mem :
    ∀ (xs : List ℚ) (x v : ℚ), v ∈ xs → xs.foldl min x ≤ v
  | [], _, v, hv => absurd hv (List.not_mem_nil v)
  | y :: ys, x, v, hv => by
    rcases List.mem_cons.mp hv with rfl | hv
    · exact le_trans (foldl_min_le_start ys (min x v)) (min_le_right x v)
    · exact foldl_min_le_mem ys (min x y) v hv

theorem foldl_min_mem :
    ∀ (xs : List ℚ) (x : ℚ), xs.foldl min x = x ∨ xs.foldl min x ∈ xs
  | [], _ => Or.inl rfl
  | y :: ys, x => by
    rcases foldl_min_mem ys (min x y) with h | h
    · rcases min_cases x y with ⟨he, _⟩ | ⟨he, _⟩
      · exact Or.inl (by rw [List.foldl_cons, h, he])
      · exact Or.inr (List.mem_cons.mpr (Or.inl (by rw [List.foldl_cons, h, he])))
    · exact Or.inr (List.mem_cons.mpr (Or.inr (by rw [List.foldl_cons]; exact h)))

theorem foldl_max_ge_start : ∀ (xs : List ℚ) (x : ℚ), x ≤ xs.foldl max x
  | [], x => le_refl x
  | y :: ys, x => le_trans (le_max_left x y) (foldl_max_ge_start ys (max x y))

theorem foldl_max_ge_mem :
    ∀ (xs : List ℚ) (x v : ℚ), v ∈ xs → v ≤ xs.foldl max x
  | [], _, v, hv => absurd hv (List.not_mem_nil v)
  | y :: ys, x, v, hv => by
    rcases List.mem_cons.mp hv with rfl | hv
    · exact le_trans (le_max_right x v) (foldl_max_ge_start ys (max x v))
    · exact foldl_max_ge_mem ys (max x y) v hv

theorem foldl_max_mem :
    ∀ (xs : List ℚ) (x : ℚ), xs.foldl max x = x ∨ xs.foldl max x ∈ xs
  | [], _ => Or.inl rfl
  | y :: ys, x => by
    rcases foldl_max_mem ys (max x y) with h | h
    · rcases max_cases x y with ⟨he, _⟩ | ⟨he, _⟩
      · exact Or.inl (by rw [List.foldl_cons, h, he])
      · exact Or.inr (List.mem_cons.mpr (Or.inl (by rw [List.foldl_cons, h, he])))
    · exact Or.inr (List.mem_cons.mpr (Or.inr (by rw [List.foldl_cons]; exact h)))

theorem seriesMin_le {l : List ℚ} {v : ℚ} (hv : v ∈ l) : seriesMin l ≤ v := by
  cases l with
  | nil => cases hv
  | cons x xs =>
    rcases List.mem_cons.mp hv with rfl | hv
    · exact foldl_min_le_start xs v
    · exact foldl_min_le_mem xs x v hv

theorem seriesMin_mem {l : List ℚ} (h : l ≠ []) : seriesMin l ∈ l := by
  cases l with
  | nil => exact absurd rfl h
  | cons x xs =>
    rcases foldl_min_mem xs x with he | he
    · exact List.mem_cons.mpr (Or.inl (by simpa [seriesMin] using he))
    · exact List.mem_cons.mpr (Or.inr (by simpa [seriesMin] using he))

theorem le_seriesMax {l : List ℚ} {v : ℚ} (hv : v ∈ l) : v ≤ seriesMax l := by
  cases l with
  | nil => cases hv
  | cons x xs =>
    rcases List.mem_cons.mp hv with rfl | hv
    · exact foldl_max_ge_start xs v
    · exact foldl_max_ge_mem xs x v hv

theorem seriesMax_mem {l : List ℚ} (h : l ≠ []) : seriesMax l ∈ l := by
  cases l with
  | nil => exact absurd rfl h
  | cons x xs =>
    rcases foldl_max_mem xs x with he | he
    · exact List.mem_cons.mpr (Or.inl (by simpa [seriesMax] using he))
    · exact List.mem_cons.mpr (Or.inr (by simpa [seriesMax] using he))

theorem seriesMin_le_seriesMax {l : List ℚ} (h : l ≠ []) :
    seriesMin l ≤ seriesMax l :=
  le_trans (seriesMin_le (seriesMax_mem h)) (le_refl _)

theorem mapExcept_map {f : β → Except PyError γ} {g : β → γ} {l : List β}
    (h : ∀ b ∈ l, f b = .ok (g b)) : mapExcept f l = .ok (l.map g) := by
  induction l with
  | nil => rfl
  | cons b bs ih =>
    have hb := h b (List.mem_cons.mpr (Or.inl rfl))
    have hr := ih (fun x hx => h x (List.mem_cons.mpr (Or.inr hx)))
    simp [mapExcept, hb, hr]

theorem sum_map_ite_one {p : β → Bool} (l : List β) :
    (l.map (fun b => if p b = true then 1 else 0)).sum = l.countP p := by
  induction l with
  | nil => rfl
  | cons b bs ih => by_cases hb : p b <;> simp [List.countP_cons, hb, ih, Nat.add_comm]

theorem sum_map_add_nat (f g : β → ℕ) (l : List β) :
    (l.map (fun b => f b + g b)).sum = (l.map f).sum + (l.map g).sum := by
  induction l with
  | nil => rfl
  | cons b bs ih => simp [ih]; omega

theorem sum_countP_swap (l1 : List β) (l2 : List γ) (p : β → γ → Bool) :
    (l1.map (fun b => l2.countP (p b))).sum =
      (l2.map (fun c => l1.countP (fun b => p b c))).sum := by
  induction l2 with
  | nil => simp [List.countP_nil]
  | cons c cs ih =>
    simp only [List.map_cons, List.sum_cons]
    have : (l1.map (fun b => (c :: cs).countP (p b))).sum
        = (l1.map (fun b => cs.countP (p b) + if p b c = true then 1 else 0)).sum := by
      congr 1
      exact List.map_congr_left (fun b _ => List.countP_cons (p b) c cs)
    rw [this, sum_map_add_nat, ih, sum_map_ite_one]
    omega

theorem sum_map_one {l : List β} {f : β → ℕ} (h : ∀ b ∈ l, f b = 1) :
    (l.map f).sum = l.length := by
  induction l with
  | nil => rfl
  | cons b bs ih =>
    simp only [List.map_cons, List.sum_cons, List.length_cons,
      h b (List.mem_cons.mpr (Or.inl rfl))]
    rw [ih (fun x hx => h x (List.mem_cons.mpr (Or.inr hx)))]
    omega

theorem binPred_iff {first width last v : ℚ} {n i : ℕ}
    (hn : 0 < n) (hw : 0 < width) (hlast : last = first + width * n)
    (hv1 : first ≤ v) (hv2 : v ≤ last) (hi : i < n) :
    (binPred first width last n i v = true ↔
      i = min (Int.toNat (Int.floor ((v - first) / width))) (n - 1)) := by
  have hq0 : (0 : ℚ) ≤ (v - first) / width := div_nonneg (by linarith) (le_of_lt hw)
  have hk0 : 0 ≤ Int.floor ((v - first) / width) := Int.floor_nonneg.mpr hq0
  have hqn : (v - first) / width ≤ (n : ℚ) := by
    rw [div_le_iff hw]
    have hv2n : v ≤ first + width * n := by rw [← hlast]; exact hv2
    linarith
  have hkn : Int.floor ((v - first) / width) ≤ (n : ℤ) := by
    have h1 := Int.floor_le_floor hqn
    rwa [Int.floor_natCast] at h1
  have hKk : ((Int.toNat (Int.floor ((v - first) / width)) : ℤ))
      = Int.floor ((v - first) / width) := Int.toNat_of_nonneg hk0
  have hlow : (first + width * i ≤ v) ↔
      (i ≤ Int.toNat (Int.floor ((v - first) / width))) := by
    rw [← @Nat.cast_le ℤ, hKk, Int.le_floor]
    constructor
    · intro h
      rw [le_div_iff hw]
      push_cast
      linarith
    · intro h
      rw [le_div_iff hw] at h
      push_cast at h
      linarith
  have hup : (v < first + width * (i + 1)) ↔
      (Int.toNat (Int.floor ((v - first) / width)) ≤ i) := by
    have h2 : (Int.floor ((v - first) / width) < (i : ℤ) + 1) ↔
        (Int.toNat (Int.floor ((v - first) / width)) ≤ i) := by omega
    rw [← h2, Int.floor_lt]
    constructor
    · intro h
      rw [div_lt_iff hw]
      push_cast
      linarith
    · intro h
      rw [div_lt_iff hw] at h
      push_cast at h
      linarith
  by_cases hin : i = n - 1
  · subst hin
    simp only [binPred, eq_self_iff_true, if_true, Bool.and_eq_true, decide_eq_true_eq]
    constructor
    · rintro ⟨h1, _⟩
      have := hlow.mp h1
      omega
    · intro h
      exact ⟨hlow.mpr (by omega), hv2⟩
  · simp only [binPred, if_neg hin, Bool.and_eq_true, decide_eq_true_eq]
    constructor
    · rintro ⟨h1, h2⟩
      have ha := hlow.mp h1
      have hb := hup.mp h2
      omega
    · intro h
      have ha : i ≤ Int.toNat (Int.floor ((v - first) / width)) := by omega
      have hb : Int.toNat (Int.floor ((v - first) / width)) ≤ i := by omega
      exact ⟨hlow.mpr ha, hup.mpr hb⟩

theorem countP_binPred_eq_one {first width last v : ℚ} {n : ℕ}
    (hn : 0 < n) (hw : 0 < width) (hlast : last = first + width * n)
    (hv1 : first ≤ v) (hv2 : v ≤ last) :
    (List.range n).countP (fun i => binPred first width last n i v) = 1 := by
  have hjn : min (Int.toNat (Int.floor ((v - first) / width))) (n - 1) < n := by omega
  have hcong : ∀ i ∈ List.range n,
      (binPred first width last n i v = true ↔
        (decide (i = min (Int.toNat (Int.floor ((v - first) / width))) (n - 1)) : Bool)
          = true) := by
    intro i hi
    rw [binPred_iff hn hw hlast hv1 hv2 (List.mem_range.mp hi)]
    simp
  rw [List.countP_congr hcong]
  have hc : (List.range n).countP
      (fun i => decide (i = min (Int.toNat (Int.floor ((v - first) / width))) (n - 1)))
      = (List.range n).count
        (min (Int.toNat (Int.floor ((v - first) / width))) (n - 1)) := by
    rw [List.count]
    apply List.countP_congr
    intro i hi
    simp [BEq.beq]
  rw [hc]
  exact List.count_eq_one_of_mem (List.nodup_range n) (List.mem_range.mpr hjn)

theorem npHistogram_unfold (data : List ℚ) (n : ℕ) {rmin rmax first last : ℚ}
    (hE : npOuterEdges rmin rmax = .ok (first, last)) (hne : ((n : ℚ)) ≠ 0) :
    npHistogram data n rmin rmax =
      .ok ((List.range n).map
             (fun i => data.countP (binPred first ((last - first) / (n : ℚ)) last n i)),
           (List.range (n + 1)).map
             (fun i : ℕ => first + ((last - first) / (n : ℚ)) * (i : ℚ))) := by
  unfold npHistogram
  rw [hE]
  simp only [safeDiv, if_neg hne]

theorem npHistogram_ok {data : List ℚ} {n : ℕ} {rmin rmax : ℚ}
    (hn : 0 < n) (hle : rmin ≤ rmax) :
    ∃ first width last : ℚ,
      npHistogram data n rmin rmax =
        .ok ((List.range n).map (fun i => data.countP (binPred first width last n i)),
             (List.range (n + 1)).map (fun i : ℕ => first + width * (i : ℚ))) ∧
      0 < width ∧ last = first + width * n ∧ first ≤ rmin ∧ rmax ≤ last ∧
      (rmin < rmax → first = rmin ∧ last = rmax) ∧
      (rmin = rmax → first = rmin - 1/2 ∧ last = rmax + 1/2) := by
  have hne : ((n : ℚ)) ≠ 0 := Nat.cast_ne_zero.mpr (Nat.pos_iff_ne_zero.mp hn)
  have hnp : (0 : ℚ) < (n : ℚ) := Nat.cast_pos.mpr hn
  rcases eq_or_lt_of_le hle with heq | hlt
  · subst heq
    refine ⟨rmin - 1/2, ((rmin + 1/2) - (rmin - 1/2)) / (n : ℚ), rmin + 1/2,
      ?_, ?_, ?_, ?_, ?_, ?_, ?_⟩
    · have hE : npOuterEdges rmin rmin = .ok (rmin - 1/2, rmin + 1/2) := by
        simp [npOuterEdges]
      exact npHistogram_unfold data n hE hne
    · have h1 : ((rmin + 1/2) - (rmin - 1/2)) = 1 := by ring
      rw [h1]
      positivity
    · have hmul : ((rmin + 1/2) - (rmin - 1/2)) / (n : ℚ) * (n : ℚ)
          = ((rmin + 1/2) - (rmin - 1/2)) := div_mul_cancel₀ _ hne
      linarith [hmul]
    · linarith
    · linarith
    · intro hcon
      exact absurd hcon (lt_irrefl rmin)
    · intro _
      exact ⟨rfl, rfl⟩
  · refine ⟨rmin, (rmax - rmin) / (n : ℚ), rmax, ?_, ?_, ?_, le_refl _, le_refl _, ?_, ?_⟩
    · have hE : npOuterEdges rmin rmax = .ok (rmin, rmax) := by
        simp [npOuterEdges, not_lt.mpr hle, ne_of_lt hlt]
      exact npHistogram_unfold data n hE hne
    · exact div_pos (by linarith) hnp
    · have hmul : (rmax - rmin) / (n : ℚ) * (n : ℚ) = rmax - rmin :=
        div_mul_cancel₀ _ hne
      linarith [hmul]
    · intro _
      exact ⟨rfl, rfl⟩
    · intro hcon
      exact absurd hcon (ne_of_lt hlt)

theorem hist_sum_eq_length {data : List ℚ} {first width last : ℚ} {n : ℕ}
    (hn : 0 < n) (hw : 0 < width) (hlast : last = first + width * n)
    (hdata : ∀ v ∈ data, first ≤ v ∧ v ≤ last) :
    ((List.range n).map (fun i => data.countP (binPred first width last n i))).sum
      = data.length := by
  rw [sum_countP_swap]
  exact sum_map_one
    (fun v hv => countP_binPred_eq_one hn hw hlast (hdata v hv).1 (hdata v hv).2)

theorem dropLast_map_range (f : ℕ → ℚ) (n : ℕ) :
    ((List.range (n + 1)).map f).dropLast = (List.range n).map f := by
  rw [List.range_succ, List.map_append]
  simp

theorem sum_map_div (l : List ℚ) (s : ℚ) :
    (l.map (fun c => c / s)).sum = l.sum / s := by
  induction l with
  | nil => simp
  | cons c cs ih =>
    simp only [List.map_cons, List.sum_cons, ih]
    ring

theorem sum_map_cast (l : List ℕ) : (l.map (Nat.cast : ℕ → ℚ)).sum = (l.sum : ℚ) := by
  induction l with
  | nil => simp
  | cons c cs ih =>
    simp only [List.map_cons, List.sum_cons, ih]
    push_cast
    ring

theorem normalize_distribution_ok {freqs : List ℕ} (h : freqs.sum ≠ 0) :
    normalize_distribution freqs
      = .ok (freqs.map (fun c : ℕ => (c : ℚ) / ((freqs.sum : ℕ) : ℚ))) := by
  simp [normalize_distribution, h]

theorem normalize_sum_one {freqs : List ℕ} (h : freqs.sum ≠ 0) :
    (freqs.map (fun c : ℕ => (c : ℚ) / ((freqs.sum : ℕ) : ℚ))).sum = 1 := by
  have hcast : ((freqs.sum : ℕ) : ℚ) ≠ 0 := Nat.cast_ne_zero.mpr h
  have h1 : freqs.map (fun c : ℕ => (c : ℚ) / ((freqs.sum : ℕ) : ℚ))
      = (freqs.map (Nat.cast : ℕ → ℚ)).map (fun c => c / ((freqs.sum : ℕ) : ℚ)) := by
    rw [List.map_map]
    rfl
  rw [h1, sum_map_div, sum_map_cast, div_self hcast]

theorem normalize_mem_nonneg {freqs : List ℕ} {q : ℚ}
    (hq : q ∈ freqs.map (fun c : ℕ => (c : ℚ) / ((freqs.sum : ℕ) : ℚ))) : 0 ≤ q := by
  rcases List.mem_map.mp hq with ⟨c, _, rfl⟩
  exact div_nonneg (Nat.cast_nonneg c) (Nat.cast_nonneg freqs.sum)

theorem numericNonCatFromData_spec {t : AttrType} {data : List ℚ} (hne : data ≠ []) :
    ∃ (a : AttributeState ℚ) (first width last : ℚ) (hist : List ℕ),
      numericNonCatFromData t data = .ok a ∧
      0 < width ∧
      last = first + width * (DEFAULT_BIN_SIZE : ℚ) ∧
      first ≤ seriesMin data ∧ seriesMax data ≤ last ∧
      (seriesMin data < seriesMax data → first = seriesMin data ∧ last = seriesMax data) ∧
      (seriesMin data = seriesMax data →
        first = seriesMin data - 1/2 ∧ last = seriesMax data + 1/2) ∧
      hist = (List.range DEFAULT_BIN_SIZE).map
        (fun i => data.countP (binPred first width last DEFAULT_BIN_SIZE i)) ∧
      hist.sum = data.length ∧
      a.type = t ∧
      a.categorical = false ∧
      a.min = (if t = AttrType.integer then (pyInt (seriesMin data) : ℚ)
        else seriesMin data) ∧
      a.max = (if t = AttrType.integer then (pyInt (seriesMax data) : ℚ)
        else seriesMax data) ∧
      a.decimals = (if t = AttrType.float then some (seriesDecimals data) else none) ∧
      a.bins = (List.range DEFAULT_BIN_SIZE).map
        (fun i : ℕ => first + width * (i : ℚ)) ∧
      a.counts = some hist ∧
      a.prs = hist.map (fun c : ℕ => (c : ℚ) / ((hist.sum : ℕ) : ℚ)) ∧
      a.step = some ((seriesMax data - seriesMin data) / (DEFAULT_BIN_SIZE : ℚ)) ∧
      a.bin_size = DEFAULT_BIN_SIZE ∧
      a.pattern_generated = true := by
  have hb : 0 < DEFAULT_BIN_SIZE := by norm_num [DEFAULT_BIN_SIZE]
  have hmm : seriesMin data ≤ seriesMax data := seriesMin_le_seriesMax hne
  obtain ⟨first, width, last, hH, hw, hlast, hf, hl, hcase1, hcase2⟩ :=
    @npHistogram_ok data DEFAULT_BIN_SIZE (seriesMin data) (seriesMax data) hb hmm
  set hist := (List.range DEFAULT_BIN_SIZE).map
    (fun i => data.countP (binPred first width last DEFAULT_BIN_SIZE i)) with hhist
  have hdata : ∀ v ∈ data, first ≤ v ∧ v ≤ last := by
    intro v hv
    exact ⟨le_trans hf (seriesMin_le hv), le_trans (le_seriesMax hv) hl⟩
  have hsum : hist.sum = data.length := hist_sum_eq_length hb hw hlast hdata
  have hlen : data.length ≠ 0 := fun hc => hne (List.length_eq_zero.mp hc)
  have hsne : hist.sum ≠ 0 := by rw [hsum]; exact hlen
  have hN := normalize_distribution_ok hsne
  have hEq : numericNonCatFromData t data = .ok
      { type := t
        categorical := false
        min := if t = AttrType.integer then (pyInt (seriesMin data) : ℚ)
          else seriesMin data
        max := if t = AttrType.integer then (pyInt (seriesMax data) : ℚ)
          else seriesMax data
        decimals := if t = AttrType.float then some (seriesDecimals data) else none
        bins := ((List.range (DEFAULT_BIN_SIZE + 1)).map
          (fun i : ℕ => first + width * (i : ℚ))).dropLast
        prs := hist.map (fun c : ℕ => (c : ℚ) / ((hist.sum : ℕ) : ℚ))
        counts := some hist
        step := some ((seriesMax data - seriesMin data) / (DEFAULT_BIN_SIZE : ℚ))
        bin_size := DEFAULT_BIN_SIZE
        pattern_generated := true } := by
    simp only [numericNonCatFromData, if_neg hne, hH, ← hhist, hN]
  refine ⟨_, first, width, last, hist, hEq, hw, hlast, hf, hl, hcase1, hcase2, hhist,
    hsum, rfl, rfl, rfl, rfl, rfl, ?_, rfl, rfl, rfl, rfl, rfl⟩
  exact dropLast_map_range (fun i : ℕ => first + width * (i : ℚ)) DEFAULT_BIN_SIZE

theorem value_counts_perm [DecidableEq α] (xs : List α) :
    List.Perm ((value_counts xs).map Prod.fst) xs.dedup := by
  have hp := List.perm_insertionSort (fun p q : α × ℕ => q.2 ≤ p.2)
    (xs.dedup.map (fun v => (v, xs.count v)))
  have hm := hp.map Prod.fst
  rw [List.map_map] at hm
  have h1 : (Prod.fst ∘ fun v : α => (v, xs.count v)) = id := rfl
  rw [h1, List.map_id] at hm
  exact hm

theorem value_counts_fst_mem [DecidableEq α] {xs : List α} {b : α} :
    b ∈ (value_counts xs).map Prod.fst ↔ b ∈ xs :=
  (value_counts_perm xs).mem_iff.trans List.mem_dedup

theorem value_counts_snd [DecidableEq α] {xs : List α} {p : α × ℕ}
    (hp : p ∈ value_counts xs) : p.2 = xs.count p.1 := by
  have hm := (List.perm_insertionSort (fun p q : α × ℕ => q.2 ≤ p.2)
    (xs.dedup.map (fun v => (v, xs.count v)))).mem_iff.mp hp
  rcases List.mem_map.mp hm with ⟨v, _, rfl⟩
  rfl

theorem catPairs_perm [LinearOrder α] (data declared : List α) :
    List.Perm (catPairs data declared)
      (value_counts data ++
        (declared.dedup.filter
            (fun b => decide (b ∉ (value_counts data).map Prod.fst))).map
          (fun b => (b, 0))) :=
  List.perm_insertionSort _ _

theorem catPairs_snd [LinearOrder α] {data declared : List α} {p : α × ℕ}
    (hp : p ∈ catPairs data declared) : p.2 = data.count p.1 := by
  rcases List.mem_append.mp ((catPairs_perm data declared).mem_iff.mp hp) with h | h
  · exact value_counts_snd h
  · rcases List.mem_map.mp h with ⟨b, hb, rfl⟩
    have hnb : b ∉ (value_counts data).map Prod.fst := by
      have := List.of_mem_filter hb
      simpa using this
    have : b ∉ data := fun hc => hnb (value_counts_fst_mem.mpr hc)
    simp [List.count_eq_zero.mpr this]

theorem catPairs_fst_nodup [LinearOrder α] (data declared : List α) :
    ((catPairs data declared).map Prod.fst).Nodup := by
  have hperm := (catPairs_perm data declared).map Prod.fst
  rw [List.Perm.nodup_iff hperm, List.map_append]
  apply List.Nodup.append
  · exact (List.Perm.nodup_iff (value_counts_perm data)).mpr (List.nodup_dedup data)
  · rw [List.map_map]
    have h1 : (Prod.fst ∘ fun b : α => (b, (0 : ℕ))) = id := rfl
    rw [h1, List.map_id]
    exact (List.nodup_dedup declared).filter _
  · intro b hb1 hb2
    rw [List.map_map] at hb2
    have h1 : (Prod.fst ∘ fun b : α => (b, (0 : ℕ))) = id := rfl
    rw [h1, List.map_id] at hb2
    have := List.of_mem_filter hb2
    simp only [decide_eq_true_eq] at this
    exact this hb1

theorem catPairs_fst_mem [LinearOrder α] {data declared : List α} {b : α} :
    b ∈ (catPairs data declared).map Prod.fst ↔ b ∈ data ∨ b ∈ declared := by
  rw [((catPairs_perm data declared).map Prod.fst).mem_iff, List.map_append,
    List.mem_append, List.map_map]
  have h1 : (Prod.fst ∘ fun b : α => (b, (0 : ℕ))) = id := rfl
  rw [h1, List.map_id]
  constructor
  · rintro (h | h)
    · exact Or.inl (value_counts_fst_mem.mp h)
    · exact Or.inr (List.mem_dedup.mp (List.mem_of_mem_filter h))
  · rintro (h | h)
    · exact Or.inl (value_counts_fst_mem.mpr h)
    · by_cases hd : b ∈ data
      · exact Or.inl (value_counts_fst_mem.mpr hd)
      · refine Or.inr (List.mem_filter.mpr ⟨List.mem_dedup.mpr h, ?_⟩)
        simp only [decide_eq_true_eq]
        exact fun hc => hd (value_counts_fst_mem.mp hc)

theorem catPairs_fst_sorted [LinearOrder α] (data declared : List α) :
    List.Sorted (· ≤ ·) ((catPairs data declared).map Prod.fst) := by
  haveI : IsTotal (α × ℕ) (fun p q => p.1 ≤ q.1) := ⟨fun a b => le_total a.1 b.1⟩
  haveI : IsTrans (α × ℕ) (fun p q => p.1 ≤ q.1) := ⟨fun a b c => le_trans⟩
  have hs : List.Sorted (fun p q : α × ℕ => p.1 ≤ q.1) (catPairs data declared) :=
    List.sorted_insertionSort _ _
  exact List.pairwise_map.mpr hs

theorem catPairs_sum [LinearOrder α] (data declared : List α) :
    ((catPairs data declared).map Prod.snd).sum = data.length := by
  have h1 : (catPairs data declared).map Prod.snd
      = (catPairs data declared).map (fun p => data.count p.1) :=
    List.map_congr_left (fun p hp => catPairs_snd hp)
  have h2 : (catPairs data declared).map (fun p => data.count p.1)
      = ((catPairs data declared).map Prod.fst).map (fun b => data.count b) := by
    rw [List.map_map]
    rfl
  rw [h1, h2]
  have h3 : ∀ b : α, data.count b = data.countP (fun v => v == b) := by
    intro b
    rw [List.count]
  have h4 : ((catPairs data declared).map Prod.fst).map (fun b => data.count b)
      = ((catPairs data declared).map Prod.fst).map
          (fun b => data.countP (fun v => v == b)) :=
    List.map_congr_left (fun b _ => h3 b)
  rw [h4, sum_countP_swap]
  apply sum_map_one
  intro v hv
  have hmem : v ∈ (catPairs data declared).map Prod.fst :=
    catPairs_fst_mem.mpr (Or.inl hv)
  have hcnt : ((catPairs data declared).map Prod.fst).countP (fun b => v == b)
      = ((catPairs data declared).map Prod.fst).count v := by
    rw [List.count]
    apply List.countP_congr
    intro b _
    constructor
    · intro hb
      have : v = b := by simpa using hb
      simp [this]
    · intro hb
      have : b = v := by simpa using hb
      simp [this]
  rw [hcnt]
  exact List.count_eq_one_of_mem (catPairs_fst_nodup data declared) hmem

theorem setDistributionCat_spec [LinearOrder α] {data declared : List α}
    (hne : data ≠ []) :
    ∃ (bins : List α) (counts : List ℕ) (prs : List ℚ),
      setDistributionCat data declared = .ok (bins, counts, prs) ∧
      bins = (catPairs data declared).map Prod.fst ∧
      counts = (catPairs data declared).map Prod.snd ∧
      bins.Nodup ∧
      List.Sorted (· ≤ ·) bins ∧
      (∀ b, b ∈ bins ↔ b ∈ data ∨ b ∈ declared) ∧
      counts.length = bins.length ∧
      prs.length = bins.length ∧
      (∀ (i : ℕ) (h1 : i < counts.length) (h2 : i < bins.length),
        counts[i] = data.count bins[i]) ∧
      counts.sum = data.length ∧
      prs = counts.map (fun c : ℕ => (c : ℚ) / ((counts.sum : ℕ) : ℚ)) ∧
      prs.sum = 1 ∧
      (∀ q ∈ prs, 0 ≤ q) := by
  have hsum := catPairs_sum data declared
  have hlen : data.length ≠ 0 := fun hc => hne (List.length_eq_zero.mp hc)
  have hsne : ((catPairs data declared).map Prod.snd).sum ≠ 0 := by
    rw [hsum]
    exact hlen
  have hN := normalize_distribution_ok hsne
  refine ⟨(catPairs data declared).map Prod.fst,
    (catPairs data declared).map Prod.snd,
    ((catPairs data declared).map Prod.snd).map
      (fun c : ℕ => (c : ℚ) /
        (((((catPairs data declared).map Prod.snd).sum : ℕ)) : ℚ)),
    ?_, rfl, rfl,
    catPairs_fst_nodup data declared, catPairs_fst_sorted data declared,
    (fun b => catPairs_fst_mem), by simp, by simp, ?_, hsum, rfl,
    normalize_sum_one hsne, fun q hq => normalize_mem_nonneg hq⟩
  · simp only [setDistributionCat, hN]
  · intro i h1 h2
    simp only [List.getElem_map]
    exact catPairs_snd (List.getElem_mem _)

theorem stringNonCatFromData_spec {data : List String} (hne : data ≠ []) :
    ∃ (a : AttributeState ℚ) (first width last : ℚ) (hist : List ℕ),
      stringNonCatFromData data = .ok a ∧
      0 < width ∧
      hist.length = DEFAULT_BIN_SIZE ∧
      hist.sum = data.length ∧
      a.type = AttrType.string ∧
      a.categorical = false ∧
      a.bins = (List.range DEFAULT_BIN_SIZE).map
        (fun i : ℕ => first + width * (i : ℚ)) ∧
      a.counts = some hist ∧
      a.prs = hist.map (fun c : ℕ => (c : ℚ) / ((hist.sum : ℕ) : ℚ)) ∧
      a.step = none ∧
      a.pattern_generated = true := by
  have hb : 0 < DEFAULT_BIN_SIZE := by norm_num [DEFAULT_BIN_SIZE]
  set items : List ℚ := data.map (fun s => (s.length : ℚ)) with hitems
  have hine : items ≠ [] := by
    rw [hitems]
    simpa using hne
  have hmm : seriesMin items ≤ seriesMax items := seriesMin_le_seriesMax hine
  obtain ⟨first, width, last, hH, hw, hlast, hf, hl, _, _⟩ :=
    @npHistogram_ok items DEFAULT_BIN_SIZE (seriesMin items) (seriesMax items) hb hmm
  set hist := (List.range DEFAULT_BIN_SIZE).map
    (fun i => items.countP (binPred first width last DEFAULT_BIN_SIZE i)) with hhist
  have hdata : ∀ v ∈ items, first ≤ v ∧ v ≤ last := by
    intro v hv
    exact ⟨le_trans hf (seriesMin_le hv), le_trans (le_seriesMax hv) hl⟩
  have hsum : hist.sum = items.length := hist_sum_eq_length hb hw hlast hdata
  have hsum2 : hist.sum = data.length := by
    rw [hsum, hitems, List.length_map]
  have hlen : data.length ≠ 0 := fun hc => hne (List.length_eq_zero.mp hc)
  have hsne : hist.sum ≠ 0 := by
    rw [hsum2]
    exact hlen
  have hN := normalize_distribution_ok hsne
  have hEq : stringNonCatFromData data = .ok
      { type := AttrType.string
        categorical := false
        min := seriesMin items
        max := seriesMax items
        decimals := none
        bins := ((List.range (DEFAULT_BIN_SIZE + 1)).map
          (fun i : ℕ => first + width * (i : ℚ))).dropLast
        prs := hist.map (fun c : ℕ => (c : ℚ) / ((hist.sum : ℕ) : ℚ))
        counts := some hist
        step := none
        bin_size := DEFAULT_BIN_SIZE
        pattern_generated := true } := by
    simp only [stringNonCatFromData, if_neg hne, ← hitems, hH, ← hhist, hN]
  refine ⟨_, first, width, last, hist, hEq, hw, by rw [hhist]; simp, hsum2, rfl, rfl,
    ?_, rfl, rfl, rfl, rfl⟩
  exact dropLast_map_range (fun i : ℕ => first + width * (i : ℚ)) DEFAULT_BIN_SIZE

theorem categoricalFromData_spec [LinearOrder α] {t : AttrType}
    {measure numView : α → ℚ} {data : List α} (hne : data ≠ []) :
    ∃ a : AttributeState α,
      categoricalFromData t measure numView data = .ok a ∧
      a.type = t ∧
      a.categorical = true ∧
      a.bins.Nodup ∧
      List.Sorted (· ≤ ·) a.bins ∧
      (∀ b, b ∈ a.bins ↔ b ∈ data) ∧
      (∃ counts : List ℕ, a.counts = some counts ∧
        counts.length = a.bins.length ∧
        counts.sum = data.length ∧
        (∀ (i : ℕ) (h1 : i < counts.length) (h2 : i < a.bins.length),
          counts[i] = data.count a.bins[i])) ∧
      a.prs.length = a.bins.length ∧
      a.prs.sum = 1 ∧
      (∀ q ∈ a.prs, 0 ≤ q) ∧
      a.min = seriesMin (data.map measure) ∧
      a.max = seriesMax (data.map measure) ∧
      a.decimals = (if t = AttrType.float then
        some (seriesDecimals (data.map numView)) else none) ∧
      a.step = none ∧
      a.bin_size = DEFAULT_BIN_SIZE ∧
      a.pattern_generated = true := by
  obtain ⟨bins, counts, prs, hEq, hb2, hc, hnd, hsort, hmem, hlen1, hlen2, hpt,
    hsum, hprs, hsum1, hnn⟩ := @setDistributionCat_spec _ _ data data.dedup hne
  have hA : categoricalFromData t measure numView data = .ok
      { type := t
        categorical := true
        min := seriesMin (data.map measure)
        max := seriesMax (data.map measure)
        decimals := if t = AttrType.float then
          some (seriesDecimals (data.map numView)) else none
        bins := bins
        prs := prs
        counts := some counts
        step := none
        bin_size := DEFAULT_BIN_SIZE
        pattern_generated := true } := by
    simp only [categoricalFromData, if_neg hne, hEq]
  refine ⟨_, hA, rfl, rfl, hnd, hsort, ?_, ⟨counts, rfl, hlen1, hsum, hpt⟩,
    hlen2, hsum1, hnn, rfl, rfl, rfl, rfl, rfl, rfl⟩
  intro b
  rw [hmem b]
  constructor
  · rintro (h | h)
    · exact h
    · exact List.mem_dedup.mp h
  · intro h
    exact Or.inl h

theorem sorted_dedup_union_eq [LinearOrder α] {l1 : List α}
    (hnd : l1.Nodup) (hsort : List.Sorted (· ≤ ·) l1) {l2 : List α}
    (hmem : ∀ b, b ∈ l1 ↔ b ∈ l2) :
    l1 = List.insertionSort (· ≤ ·) l2.dedup := by
  apply List.eq_of_perm_of_sorted ?_ hsort (List.sorted_insertionSort _ _)
  rw [List.perm_ext_iff_of_nodup hnd
    (((List.perm_insertionSort (· ≤ ·) l2.dedup)).nodup_iff.mpr (List.nodup_dedup l2))]
  intro b
  rw [hmem b, (List.perm_insertionSort (· ≤ ·) l2.dedup).mem_iff, List.mem_dedup]

theorem domainSetterCat_spec [LinearOrder α] (a : AttributeState α)
    (measure : α → ℚ) {data domain : List α} (hne : data ≠ []) :
    ∃ a2 : AttributeState α,
      domainSetterCat a measure data domain = .ok a2 ∧
      a2.type = a.type ∧
      a2.categorical = a.categorical ∧
      a2.bins.Nodup ∧
      List.Sorted (· ≤ ·) a2.bins ∧
      (∀ b, b ∈ a2.bins ↔ b ∈ data ∨ b ∈ domain) ∧
      (∃ counts : List ℕ, a2.counts = some counts ∧
        counts.length = a2.bins.length ∧
        counts.sum = data.length ∧
        (∀ (i : ℕ) (h1 : i < counts.length) (h2 : i < a2.bins.length),
          counts[i] = data.count a2.bins[i])) ∧
      a2.prs.length = a2.bins.length ∧
      a2.prs.sum = 1 ∧
      (∀ q ∈ a2.prs, 0 ≤ q) ∧
      a2.min = seriesMin (domain.map measure) ∧
      a2.max = seriesMax (domain.map measure) := by
  obtain ⟨bins, counts, prs, hEq, hb2, hc, hnd, hsort, hmem, hlen1, hlen2, hpt,
    hsum, hprs, hsum1, hnn⟩ := @setDistributionCat_spec _ _ data domain hne
  have hA : domainSetterCat a measure data domain = .ok
      { a with
        min := seriesMin (domain.map measure)
        max := seriesMax (domain.map measure)
        bins := bins
        prs := prs
        counts := some counts } := by
    simp only [domainSetterCat, hEq]
  exact ⟨_, hA, rfl, rfl, hnd, hsort, hmem, ⟨counts, rfl, hlen1, hsum, hpt⟩,
    hlen2, hsum1, hnn, rfl, rfl⟩

theorem roundHalfEven_intCast (z : ℤ) : roundHalfEven (z : ℚ) = z := by
  simp [roundHalfEven, Int.floor_intCast]

theorem le_roundHalfEven (x : ℚ) : Int.floor x ≤ roundHalfEven x := by
  unfold roundHalfEven
  split_ifs <;> omega

theorem roundHalfEven_le (x : ℚ) : roundHalfEven x ≤ Int.floor x + 1 := by
  unfold roundHalfEven
  split_ifs <;> omega

theorem roundHalfEven_mono {x y : ℚ} (h : x ≤ y) :
    roundHalfEven x ≤ roundHalfEven y := by
  have hf : Int.floor x ≤ Int.floor y := Int.floor_le_floor h
  rcases lt_or_eq_of_le hf with hlt | heq
  · calc roundHalfEven x ≤ Int.floor x + 1 := roundHalfEven_le x
      _ ≤ Int.floor y := by omega
      _ ≤ roundHalfEven y := le_roundHalfEven y
  · unfold roundHalfEven
    rw [← heq]
    have hr : x - (Int.floor x : ℚ) ≤ y - (Int.floor x : ℚ) := by linarith
    split_ifs <;> first | omega | linarith

theorem roundHalfEven_of_close {z : ℤ} {x : ℚ}
    (h1 : (z : ℚ) - 1/2 < x) (h2 : x < (z : ℚ) + 1/2) :
    roundHalfEven x = z := by
  rcases le_or_lt (z : ℚ) x with hzx | hzx
  · have hfl : Int.floor x = z := by
      rw [Int.floor_eq_iff]
      · constructor
        · exact_mod_cast hzx
        · push_cast
          linarith
    unfold roundHalfEven
    rw [hfl]
    rw [if_pos (by linarith)]
  · have hfl : Int.floor x = z - 1 := by
      rw [Int.floor_eq_iff]
      constructor
      · push_cast
        linarith
      · push_cast
        linarith
    unfold roundHalfEven
    rw [hfl]
    rw [if_neg (by push_cast; linarith), if_pos (by push_cast; linarith)]
    omega

theorem bisect_right_spec [LinearOrder α] {l : List α} (hs : List.Sorted (· ≤ ·) l)
    (x : α) :
    ∀ (j : ℕ) (hj : j < l.length), (l[j] ≤ x ↔ j < bisect_right l x) := by
  induction l with
  | nil =>
    intro j hj
    simp at hj
  | cons b t ih =>
    have hst : List.Sorted (· ≤ ·) t := hs.of_cons
    by_cases hb : b ≤ x
    · intro j hj
      match j with
      | 0 =>
        simp only [List.getElem_cons_zero, bisect_right, List.countP_cons]
        simp [hb]
      | j + 1 =>
        have hj2 : j < t.length := by simpa using hj
        have hiff := ih hst j hj2
        have hc : bisect_right (b :: t) x = bisect_right t x + 1 := by
          simp [bisect_right, List.countP_cons, hb]
        simp only [List.getElem_cons_succ]
        rw [hc]
        constructor
        · intro h
          have := hiff.mp h
          omega
        · intro h
          exact hiff.mpr (by omega)
    · have hall : ∀ y ∈ t, ¬ (y ≤ x) := by
        intro y hy hc
        exact hb (le_trans (List.rel_of_sorted_cons hs y hy) hc)
      have h0 : bisect_right (b :: t) x = 0 := by
        simp only [bisect_right, List.countP_cons]
        rw [List.countP_eq_zero.mpr]
        · simp [hb]
        · intro y hy
          simp [hall y hy]
      intro j hj
      rw [h0]
      constructor
      · intro hc
        exfalso
        match j with
        | 0 => exact hb (by simpa using hc)
        | j + 1 =>
          have hj2 : j < t.length := by simpa using hj
          exact hall _ (List.getElem_mem hj2) (by simpa using hc)
      · omega

theorem bisect_right_le_length [LinearOrder α] (l : List α) (x : α) :
    bisect_right l x ≤ l.length :=
  List.countP_le_length _

theorem dictIndex_some [DecidableEq α] :
    ∀ {l : List α} {x : α} {i : ℕ}, dictIndex l x = some i →
      ∃ h : i < l.length, l[i] = x := by
  intro l
  induction l with
  | nil => intro x i h; simp [dictIndex] at h
  | cons b t ih =>
    intro x i h
    simp only [dictIndex] at h
    cases hd : dictIndex t x with
    | some j =>
      rw [hd] at h
      obtain ⟨hj, hx⟩ := ih hd
      cases h
      exact ⟨by simpa using Nat.succ_lt_succ hj, by simpa using hx⟩
    | none =>
      rw [hd] at h
      by_cases hbx : b = x
      · rw [if_pos hbx] at h
        cases h
        exact ⟨by simp, by simpa using hbx⟩
      · rw [if_neg hbx] at h
        cases h

theorem dictIndex_mem [DecidableEq α] :
    ∀ {l : List α} {x : α}, x ∈ l → ∃ i, dictIndex l x = some i := by
  intro l
  induction l with
  | nil => intro x h; cases h
  | cons b t ih =>
    intro x h
    simp only [dictIndex]
    cases hd : dictIndex t x with
    | some j => exact ⟨j + 1, rfl⟩
    | none =>
      rcases List.mem_cons.mp h with rfl | hmem
      · exact ⟨0, by simp⟩
      · obtain ⟨i, hi⟩ := ih hmem
        rw [hd] at hi
        cases hi

/-- Claim C1: round-trip serialization.  For every attribute state (in
particular every one computed from raw data), building an attribute from
the record returned by `to_pattern` via `set_pattern` — with no raw values
and any `categorical` keyword — reproduces the same type, categorical
flag, min, max, bins and prs.  In the exact rational model the equalities
are exact, which subsumes both the "exact" and the "within numeric
tolerance" halves of the claim. -/
theorem C1_roundtrip (α : Type) (a : AttributeState α) (kw : Bool) :
    (set_pattern (to_pattern a) kw).type = a.type ∧
    (set_pattern (to_pattern a) kw).categorical = a.categorical ∧
    (set_pattern (to_pattern a) kw).min = a.min ∧
    (set_pattern (to_pattern a) kw).max = a.max ∧
    (set_pattern (to_pattern a) kw).bins = a.bins ∧
    (set_pattern (to_pattern a) kw).prs = a.prs ∧
    (set_pattern (to_pattern a) kw).pattern_generated = true :=
  ⟨rfl, rfl, rfl, rfl, rfl, rfl, rfl⟩

/-- Claim C6: calling `encode` on a non-categorical string attribute always
fails with the invalid-operation `ValueError` of lines 443-444, for every
input; `encode` never produces a value for such an attribute. -/
theorem C6_encode_noncat_string_error (α : Type) [DecidableEq α]
    (a : AttributeState α) (numView : α → ℚ) (data : List α)
    (h1 : a.type = AttrType.string) (h2 : a.categorical = false) :
    encode a numView data = .error PyError.valueError := by
  simp [encode, h1, h2]

theorem C6_witness :
    (stringNonCatFromData ["ab", "c", "ab"]).isOk = true ∧
    (getOk (stringNonCatFromData ["ab", "c", "ab"])).type = AttrType.string ∧
    (getOk (stringNonCatFromData ["ab", "c", "ab"])).categorical = false ∧
    encode (getOk (stringNonCatFromData ["ab", "c", "ab"])) id [(3 : ℚ)]
      = .error PyError.valueError := by
  have hok : (stringNonCatFromData ["ab", "c", "ab"]).isOk = true := by
    with_unfolding_all decide
  have h1 : (getOk (stringNonCatFromData ["ab", "c", "ab"])).type
      = AttrType.string := by
    with_unfolding_all decide
  have h2 : (getOk (stringNonCatFromData ["ab", "c", "ab"])).categorical = false := by
    with_unfolding_all decide
  exact ⟨hok, h1, h2, C6_encode_noncat_string_error ℚ (getOk _) id [3] h1 h2⟩

/-- Claim C2, counterexample to the part asserting that
`len(bins) == len(prs) == len(counts)` also holds for attributes
reconstructed from a pattern record without raw data: reconstructing from
the serialized record of a real attribute yields a pattern-generated
attribute whose `bins` and `prs` lengths agree but whose `_counts` field
was never assigned (`set_pattern` does not set it), so `counts` does not
exist at all — accessing it raises `AttributeError` in the source. -/
theorem C2_counterexample :
    (numericNonCatFromData AttrType.integer [1, 2, 2]).isOk = true ∧
    (set_pattern (to_pattern (getOk (numericNonCatFromData AttrType.integer [1, 2, 2])))
        false).pattern_generated = true ∧
    (set_pattern (to_pattern (getOk (numericNonCatFromData AttrType.integer [1, 2, 2])))
        false).bins.length
      = (set_pattern (to_pattern (getOk (numericNonCatFromData AttrType.integer [1, 2, 2])))
        false).prs.length ∧
    (set_pattern (to_pattern (getOk (numericNonCatFromData AttrType.integer [1, 2, 2])))
        false).counts = none := by
  refine ⟨by with_unfolding_all decide, rfl, by with_unfolding_all decide, rfl⟩

/-- Claim C2 (amended): for every attribute whose pattern is computed from
raw data with at least one (non-missing) value — numeric/datetime
non-categorical, string non-categorical, or categorical — `sum(prs) = 1`
and `len(bins) == len(prs) == len(counts)`.  For an attribute
reconstructed from a pattern record, `bins` and `prs` are taken verbatim
from the record (so they have equal lengths whenever the record came from
`to_pattern`), but `_counts` is never assigned, so the `counts` leg of the
invariant does not exist there — that is the one part of the original
claim the code falsifies. -/
theorem C2_amended :
    (∀ (t : AttrType) (data : List ℚ) (a : AttributeState ℚ), data ≠ [] →
      numericNonCatFromData t data = .ok a →
        a.prs.sum = 1 ∧ a.bins.length = a.prs.length ∧
        a.counts ≠ none ∧ (a.counts.getD []).length = a.bins.length) ∧
    (∀ (data : List String) (a : AttributeState ℚ), data ≠ [] →
      stringNonCatFromData data = .ok a →
        a.prs.sum = 1 ∧ a.bins.length = a.prs.length ∧
        a.counts ≠ none ∧ (a.counts.getD []).length = a.bins.length) ∧
    (∀ (α : Type) [LinearOrder α] (t : AttrType) (measure numView : α → ℚ)
        (data : List α) (a : AttributeState α), data ≠ [] →
      categoricalFromData t measure numView data = .ok a →
        a.prs.sum = 1 ∧ a.bins.length = a.prs.length ∧
        a.counts ≠ none ∧ (a.counts.getD []).length = a.bins.length) ∧
    (∀ (p : PatternRecord ℚ) (kw : Bool),
      (set_pattern p kw).bins = p.bins ∧ (set_pattern p kw).prs = p.prs ∧
      (set_pattern p kw).counts = none) := by
  refine ⟨?_, ?_, ?_, ?_⟩
  · intro t data a hne hok
    obtain ⟨a2, first, width, last, hist, hEq, _, _, _, _, _, _, hhist, hsum, _, _,
      _, _, _, hbins, hcounts, hprs, _, _, _⟩ := @numericNonCatFromData_spec t data hne
    have ha : a = a2 := Except.ok.inj (hok.symm.trans hEq)
    subst ha
    have hsne : hist.sum ≠ 0 := by
      rw [hsum]
      exact fun hc => hne (List.length_eq_zero.mp hc)
    have hhlen : hist.length = DEFAULT_BIN_SIZE := by
      rw [hhist]
      simp
    refine ⟨?_, ?_, ?_, ?_⟩
    · rw [hprs]
      exact normalize_sum_one hsne
    · rw [hbins, hprs]
      simp [List.length_map, hhlen]
    · rw [hcounts]
      simp
    · rw [hcounts, hbins]
      simp [List.length_map, hhlen]
  · intro data a hne hok
    obtain ⟨a2, first, width, last, hist, hEq, _, hhlen, hsum, _, _, hbins, hcounts,
      hprs, _, _⟩ := stringNonCatFromData_spec hne
    have ha : a = a2 := Except.ok.inj (hok.symm.trans hEq)
    subst ha
    have hsne : hist.sum ≠ 0 := by
      rw [hsum]
      exact fun hc => hne (List.length_eq_zero.mp hc)
    refine ⟨?_, ?_, ?_, ?_⟩
    · rw [hprs]
      exact normalize_sum_one hsne
    · rw [hbins, hprs]
      simp [List.length_map, hhlen]
    · rw [hcounts]
      simp
    · rw [hcounts, hbins]
      simp [List.length_map, hhlen]
  · intro α inst t measure numView data a hne hok
    obtain ⟨a2, hEq, _, _, _, _, _, ⟨counts, hcounts, hclen, _, _⟩, hplen, hpsum,
      _, _, _, _, _, _, _⟩ := @categoricalFromData_spec _ _ t measure numView data hne
    have ha : a = a2 := Except.ok.inj (hok.symm.trans hEq)
    subst ha
    refine ⟨hpsum, hplen.symm, ?_, ?_⟩
    · rw [hcounts]
      simp
    · rw [hcounts]
      simpa using hclen
  · intro p kw
    exact ⟨rfl, rfl, rfl⟩

theorem C2_witness :
    ([1, 2, 2] : List ℚ) ≠ [] ∧
    (getOk (numericNonCatFromData AttrType.integer [1, 2, 2])).prs.sum = 1 ∧
    (getOk (numericNonCatFromData AttrType.integer [1, 2, 2])).bins.length
      = (getOk (numericNonCatFromData AttrType.integer [1, 2, 2])).prs.length ∧
    (getOk (numericNonCatFromData AttrType.integer [1, 2, 2])).counts ≠ none ∧
    (["a", "bb", "a"] : List String) ≠ [] ∧
    (getOk (stringNonCatFromData ["a", "bb", "a"])).prs.sum = 1 ∧
    ([1, 1, 2] : List ℚ) ≠ [] ∧
    (getOk (categoricalFromData AttrType.integer (id : ℚ → ℚ) id [1, 1, 2])).prs.sum
      = 1 ∧
    (set_pattern (to_pattern (getOk (numericNonCatFromData AttrType.integer [1, 2, 2])))
        false).counts = none := by
  have hok1 : (numericNonCatFromData AttrType.integer [1, 2, 2]).isOk = true := by
    with_unfolding_all decide
  have h1 := C2_amended.1 AttrType.integer [1, 2, 2] _ (by decide) (getOk_spec hok1)
  have hok2 : (stringNonCatFromData ["a", "bb", "a"]).isOk = true := by
    with_unfolding_all decide
  have h2 := C2_amended.2.1 ["a", "bb", "a"] _ (by decide) (getOk_spec hok2)
  have hok3 : (categoricalFromData AttrType.integer (id : ℚ → ℚ) id
      [1, 1, 2]).isOk = true := by
    with_unfolding_all decide
  have h3 := C2_amended.2.2.1 ℚ AttrType.integer id id [1, 1, 2] _ (by decide)
    (getOk_spec hok3)
  have h4 := C2_amended.2.2.2
    (to_pattern (getOk (numericNonCatFromData AttrType.integer [1, 2, 2]))) false
  exact ⟨by decide, h1.1, h1.2.1, h1.2.2.1, by decide, h2.1, by decide, h3.1,
    h4.2.2⟩

/-- Claim C4, counterexample: a non-categorical datetime attribute built
from the epoch seconds `[0, 20]` serializes a `bins` field of 20 histogram
edges, not a 2-element `[min_seconds, max_seconds]` pair —
`_set_distribution` (lines 236-247) overwrites the 2-element domain bins
set by `_set_domain` with `edges[:-1]` of the `_bin_size`-bin histogram
before `to_pattern` ever runs. -/
theorem C4_counterexample :
    (numericNonCatFromData AttrType.datetime [0, 20]).isOk = true ∧
    (to_pattern (getOk (numericNonCatFromData AttrType.datetime [0, 20]))).bins.length
      = 20 ∧
    ¬ (to_pattern (getOk (numericNonCatFromData AttrType.datetime [0, 20]))).bins.length
      = 2 := by
  refine ⟨?_, ?_, ?_⟩ <;> with_unfolding_all decide

/-- Claim C4 (amended): for a non-categorical datetime attribute built from
raw data, `to_pattern()['bins']` is the `_bin_size` (= 20)-element list of
left histogram bin edges over the epoch-second domain; the `min`/`max`
fields of the record carry the domain boundaries, and whenever
`min < max` the first bin edge equals `min_seconds` (`max_seconds` is the
implicit right edge of the last bin). -/
theorem C4_amended (data : List ℚ) (hne : data ≠ []) (a : AttributeState ℚ)
    (hok : numericNonCatFromData AttrType.datetime data = .ok a) :
    (to_pattern a).bins.length = DEFAULT_BIN_SIZE ∧
    (to_pattern a).min = seriesMin data ∧
    (to_pattern a).max = seriesMax data ∧
    (seriesMin data < seriesMax data →
      (to_pattern a).bins.head? = some (seriesMin data)) := by
  obtain ⟨a2, first, width, last, hist, hEq, _, _, _, _, hcase1, _, _, _, _, _,
    hmin, hmax, _, hbins, _, _, _, _, _⟩ :=
    @numericNonCatFromData_spec AttrType.datetime data hne
  have ha : a = a2 := Except.ok.inj (hok.symm.trans hEq)
  subst ha
  have hb : 0 < DEFAULT_BIN_SIZE := by norm_num [DEFAULT_BIN_SIZE]
  refine ⟨?_, ?_, ?_, ?_⟩
  · show a.bins.length = DEFAULT_BIN_SIZE
    rw [hbins]
    simp
  · show a.min = seriesMin data
    rw [hmin]
    simp
  · show a.max = seriesMax data
    rw [hmax]
    simp
  · intro hlt
    show a.bins.head? = some (seriesMin data)
    rw [hbins]
    rcases hcase1 hlt with ⟨hfirst, _⟩
    rw [List.head?_eq_getElem?, List.getElem?_map, List.getElem?_range hb]
    simp [hfirst]

theorem C4_witness :
    ([0, 20] : List ℚ) ≠ [] ∧
    (to_pattern (getOk (numericNonCatFromData AttrType.datetime [0, 20]))).bins.length
      = DEFAULT_BIN_SIZE ∧
    (to_pattern (getOk (numericNonCatFromData AttrType.datetime [0, 20]))).bins.head?
      = some (seriesMin [0, 20]) := by
  have hok : (numericNonCatFromData AttrType.datetime [0, 20]).isOk = true := by
    with_unfolding_all decide
  have h := C4_amended [0, 20] (by decide) _ (getOk_spec hok)
  exact ⟨by decide, h.1, h.2.2.2 (by with_unfolding_all decide)⟩

/-- Claim C5, counterexample: on the integer attribute built from `[0, 20]`
(min 0, max 20, step 1), encoding the value 3 yields
`int(3 / (1 + 1e-8)) / 20 = 2 / 20 = 1/10`, whereas the claim's formula
without the `int()` truncation, `(3 − 0) / (step + ε) / 20`, is not
`1/10` — the source truncates to the bin index (line 440) before dividing
by the bin count. -/
theorem C5_counterexample :
    (numericNonCatFromData AttrType.integer [0, 20]).isOk = true ∧
    encode (getOk (numericNonCatFromData AttrType.integer [0, 20])) id [3]
      = .ok (EncodeResult.scalars [1/10]) ∧
    ¬ ((3 - 0) / ((20 - 0) / (20 : ℚ) + 1/100000000) / 20 = 1/10) := by
  refine ⟨by with_unfolding_all decide, by with_unfolding_all decide, by norm_num⟩

/-- Claim C5 (amended): `encode` on a non-categorical numeric or datetime
attribute built from raw data maps every value `v` (datetime inputs
already being epoch seconds after the boundary conversion of
lines 426-430) to `int((v − min) / (step + 1e-8)) / bin_size` with
`step = (max − min) / bin_size` and `bin_size = 20` — the claim's formula
with the `int()` truncation of line 440 restored. -/
theorem C5_amended (t : AttrType) (ht : t ≠ AttrType.string) (data : List ℚ)
    (hne : data ≠ []) (a : AttributeState ℚ)
    (hok : numericNonCatFromData t data = .ok a) (input : List ℚ) :
    encode a id input = .ok (EncodeResult.scalars (input.map (fun v =>
      ((pyInt ((v - a.min) /
          ((seriesMax data - seriesMin data) / (DEFAULT_BIN_SIZE : ℚ)
            + 1/100000000)) : ℤ) : ℚ) / (DEFAULT_BIN_SIZE : ℚ)))) := by
  obtain ⟨a2, first, width, last, hist, hEq, _, _, _, _, _, _, _, _, htype, hcat,
    _, _, _, _, _, _, hstep, hbsize, _⟩ := @numericNonCatFromData_spec t data hne
  have ha : a = a2 := Except.ok.inj (hok.symm.trans hEq)
  subst ha
  have hmm : seriesMin data ≤ seriesMax data := seriesMin_le_seriesMax hne
  have hden : (seriesMax data - seriesMin data) / (DEFAULT_BIN_SIZE : ℚ)
      + 1/100000000 ≠ 0 := by
    have hs : 0 ≤ (seriesMax data - seriesMin data) / (DEFAULT_BIN_SIZE : ℚ) := by
      apply div_nonneg (by linarith)
      norm_num [DEFAULT_BIN_SIZE]
    positivity
  have hperel : ∀ v ∈ input, encodeValue a (id v) = .ok
      (((pyInt ((v - a.min) /
          ((seriesMax data - seriesMin data) / (DEFAULT_BIN_SIZE : ℚ)
            + 1/100000000)) : ℤ) : ℚ) / (DEFAULT_BIN_SIZE : ℚ)) := by
    intro v _
    simp only [encodeValue, hstep, id_eq, safeDiv, if_neg hden, hbsize]
  have hmapped := mapExcept_map hperel
  have hcond : a.type ≠ AttrType.string := by
    rw [htype]
    exact ht
  simp only [encode, hcat]
  rw [if_neg (by simp), if_pos hcond, hmapped]

theorem C5_witness :
    AttrType.integer ≠ AttrType.string ∧
    ([0, 20] : List ℚ) ≠ [] ∧
    encode (getOk (numericNonCatFromData AttrType.integer [0, 20])) id [3]
      = .ok (EncodeResult.scalars [1/10]) := by
  have hok : (numericNonCatFromData AttrType.integer [0, 20]).isOk = true := by
    with_unfolding_all decide
  have h := C5_amended AttrType.integer (by decide) [0, 20] (by decide) _
    (getOk_spec hok) [3]
  refine ⟨by decide, by decide, ?_⟩
  rw [h]
  with_unfolding_all decide

/-- Claim C9: after pattern computation from raw data, `categorical` is
true if and only if the caller supplied `categorical=true` at
construction, or the inferred type is string and the column (as it stands
after missing values are imputed with the mode, which is when line 96
evaluates `is_unique`) contains at least one duplicate value; and a
caller-supplied `categorical=true` always wins regardless of type or
uniqueness. -/
theorem C9_categorical_iff (isdt : RawVal → Bool) (categoricalKw : Bool)
    (data : List (Option RawVal)) (t : AttrType) (cat : Bool)
    (filled : List RawVal)
    (hok : calcTypeAndCategorical isdt categoricalKw data = .ok (t, cat, filled)) :
    (cat = true ↔
      (categoricalKw = true ∨ (t = AttrType.string ∧ ¬ filled.Nodup))) ∧
    (categoricalKw = true → cat = true) := by
  simp only [calcTypeAndCategorical] at hok
  cases hm : seriesMode (data.filterMap id) with
  | none =>
    rw [hm] at hok
    cases hok
  | some m =>
    rw [hm] at hok
    simp only [Except.ok.injEq, Prod.mk.injEq] at hok
    obtain ⟨ht, hcat, hfill⟩ := hok
    subst ht
    subst hcat
    subst hfill
    constructor
    · cases categoricalKw with
      | true => simp
      | false =>
        simp only [Bool.false_or, false_or]
        by_cases hty : inferAttrType isdt (data.filterMap id) = AttrType.string
        · by_cases hnd : (data.map (fun o => o.getD m)).Nodup
          · simp [hty, hnd]
          · simp [hty, hnd]
        · simp [hty]
    · intro hkw
      subst hkw
      simp

theorem C9_witness :
    calcTypeAndCategorical (fun _ => false) false [some (RawVal.s "a"), none]
      = .ok (AttrType.string, true, [RawVal.s "a", RawVal.s "a"]) ∧
    (true = true ↔ (false = true ∨ (AttrType.string = AttrType.string ∧
      ¬ ([RawVal.s "a", RawVal.s "a"] : List RawVal).Nodup))) := by
  have hok : calcTypeAndCategorical (fun _ => false) false
      [some (RawVal.s "a"), none]
      = .ok (AttrType.string, true, [RawVal.s "a", RawVal.s "a"]) := by
    with_unfolding_all decide
  exact ⟨hok, (C9_categorical_iff _ _ _ _ _ _ hok).1⟩

/-- Claim C10: after the `domain` setter is applied to a categorical
attribute that still holds raw data, the resulting `bins` is the
ascending-sorted union of the supplied domain values and the observed data
values; observed values absent from the supplied domain are retained in
`bins` with their nonzero counts, and supplied values absent from the data
appear with count zero (and `prs` still sums to 1). -/
theorem C10_domain_setter_cat (α : Type) [LinearOrder α] (a : AttributeState α)
    (measure : α → ℚ) (data domain : List α) (hcat : a.categorical = true)
    (hne : data ≠ []) (a2 : AttributeState α)
    (hok : domainSetterCat a measure data domain = .ok a2) :
    a2.bins = List.insertionSort (· ≤ ·) ((data ++ domain).dedup) ∧
    a2.counts ≠ none ∧
    (a2.counts.getD []).length = a2.bins.length ∧
    (∀ (i : ℕ) (h1 : i < (a2.counts.getD []).length) (h2 : i < a2.bins.length),
      (a2.counts.getD [])[i] = data.count a2.bins[i] ∧
      (a2.bins[i] ∈ data → 0 < (a2.counts.getD [])[i]) ∧
      (a2.bins[i] ∉ data → (a2.counts.getD [])[i] = 0)) ∧
    a2.prs.sum = 1 := by
  obtain ⟨a3, hEq, _, _, hnd, hsort, hmem, ⟨counts, hcounts, hclen, _, hpt⟩,
    _, hpsum, _, _, _⟩ := @domainSetterCat_spec _ _ a measure data domain hne
  have ha : a2 = a3 := Except.ok.inj (hok.symm.trans hEq)
  subst ha
  refine ⟨?_, ?_, ?_, ?_, hpsum⟩
  · apply sorted_dedup_union_eq hnd hsort
    intro b
    rw [hmem b, List.mem_append]
  · rw [hcounts]
    simp
  · rw [hcounts]
    simpa using hclen
  · intro i h1 h2
    have h1b : i < counts.length := by
      have := h1
      rw [hcounts] at this
      simpa using this
    have hcthis := hpt i h1b h2
    simp only [hcounts, Option.getD_some]
    refine ⟨hcthis, ?_, ?_⟩
    · intro hbmem
      rw [hcthis]
      exact List.count_pos_iff.mpr hbmem
    · intro hbnot
      rw [hcthis]
      exact List.count_eq_zero.mpr hbnot

theorem C10_witness :
    (getOk (categoricalFromData AttrType.integer (id : ℚ → ℚ) id
      [3, 1, 3])).categorical = true ∧
    ([3, 1, 3] : List ℚ) ≠ [] ∧
    (getOk (domainSetterCat (getOk (categoricalFromData AttrType.integer
        (id : ℚ → ℚ) id [3, 1, 3])) id [3, 1, 3] [1, 2])).bins
      = List.insertionSort (· ≤ ·) ((([3, 1, 3] : List ℚ) ++ [1, 2]).dedup) ∧
    (getOk (domainSetterCat (getOk (categoricalFromData AttrType.integer
        (id : ℚ → ℚ) id [3, 1, 3])) id [3, 1, 3] [1, 2])).bins = [1, 2, 3] ∧
    (getOk (domainSetterCat (getOk (categoricalFromData AttrType.integer
        (id : ℚ → ℚ) id [3, 1, 3])) id [3, 1, 3] [1, 2])).counts
      = some [1, 0, 2] ∧
    (getOk (domainSetterCat (getOk (categoricalFromData AttrType.integer
        (id : ℚ → ℚ) id [3, 1, 3])) id [3, 1, 3] [1, 2])).prs.sum = 1 := by
  have hcat : (getOk (categoricalFromData AttrType.integer (id : ℚ → ℚ) id
      [3, 1, 3])).categorical = true := by
    with_unfolding_all decide
  have hok : (domainSetterCat (getOk (categoricalFromData AttrType.integer
      (id : ℚ → ℚ) id [3, 1, 3])) id [3, 1, 3] [1, 2]).isOk = true := by
    with_unfolding_all decide
  have h := C10_domain_setter_cat ℚ _ id [3, 1, 3] [1, 2] hcat (by decide) _
    (getOk_spec hok)
  refine ⟨hcat, by decide, h.1, by with_unfolding_all decide,
    by with_unfolding_all decide, h.2.2.2.2⟩

theorem pyInt_intCast (z : ℤ) : pyInt (z : ℚ) = z := by
  unfold pyInt
  by_cases hz : (z : ℚ) < 0
  · rw [if_pos hz]
    rw [← Int.cast_neg, Int.floor_intCast]
    omega
  · rw [if_neg hz, Int.floor_intCast]

theorem uniformDraw_bounds {lo hi u : ℚ} (hlh : lo ≤ hi) (hu0 : 0 ≤ u)
    (hu1 : u ≤ 1) : lo ≤ uniformDraw lo hi u ∧ uniformDraw lo hi u ≤ hi := by
  unfold uniformDraw
  constructor
  · nlinarith
  · nlinarith

theorem seriesMin_replicate {k : ℕ} (hk : 0 < k) (c : ℚ) :
    seriesMin (List.replicate k c) = c := by
  have hne : List.replicate k c ≠ [] := by
    simp only [ne_eq, List.replicate_eq_nil_iff]
    omega
  exact List.eq_of_mem_replicate (@seriesMin_mem (List.replicate k c) hne)

theorem seriesMax_replicate {k : ℕ} (hk : 0 < k) (c : ℚ) :
    seriesMax (List.replicate k c) = c := by
  have hne : List.replicate k c ≠ [] := by
    simp only [ne_eq, List.replicate_eq_nil_iff]
    omega
  exact List.eq_of_mem_replicate (@seriesMax_mem (List.replicate k c) hne)

theorem mapExcept_ok_forall {f : β → Except PyError γ} {l : List β} {P : γ → Prop}
    (h : ∀ b ∈ l, ∃ c, f b = .ok c ∧ P c) :
    ∃ cs, mapExcept f l = .ok cs ∧ ∀ c ∈ cs, P c := by
  induction l with
  | nil => exact ⟨[], rfl, by simp⟩
  | cons b bs ih =>
    obtain ⟨c, hc, hPc⟩ := h b (by simp)
    obtain ⟨cs, hcs, hPs⟩ := ih (fun x hx => h x (by simp [hx]))
    refine ⟨c :: cs, ?_, ?_⟩
    · simp [mapExcept, hc, hcs]
    · intro d hd
      rcases List.mem_cons.mp hd with rfl | hd
      · exact hPc
      · exact hPs d hd

/-- Claim C3, counterexample: on a non-categorical integer attribute whose
domain has been overridden to `[1, 3]` while its raw data `[0, 2, 5]`
stays resident, `bin_indexes` maps the below-range value 0 to
`bisect_right(bins, 0) - 1 = -1`, not to the sentinel `len(bins) = 20`
the claim promises for out-of-range values (the `fillna` at line 291 only
replaces missing entries, and -1 is not missing). -/
theorem C3_counterexample :
    (getOk (domainSetterNumeric (getOk (numericNonCatFromData AttrType.integer
      [0, 2, 5])) [0, 2, 5] [1, 3])).categorical = false ∧
    bin_indexes (getOk (domainSetterNumeric (getOk (numericNonCatFromData
      AttrType.integer [0, 2, 5])) [0, 2, 5] [1, 3]))
      [some (0 : ℚ), some 2, some 5] = .ok [-1, 10, 19] ∧
    (getOk (domainSetterNumeric (getOk (numericNonCatFromData AttrType.integer
      [0, 2, 5])) [0, 2, 5] [1, 3])).bins.length = 20 ∧
    ¬ ((-1 : ℤ) = (20 : ℤ)) := by
  refine ⟨?_, ?_, ?_, ?_⟩ <;> with_unfolding_all decide

/-- Claim C3 (amended): `bin_indexes` returns integer-typed indices and
maps, entry by entry: a missing value to the sentinel `len(bins)` (in both
branches); for a categorical attribute whose present values all occur in
`bins`, a value to a position of that value in `bins` via the dictionary
lookup; for a non-categorical attribute with ascending `bins`, a value `v`
with `bins[0] ≤ v` to the largest index `i` with `bins[i] ≤ v` — while a
value below `bins[0]` maps to `-1`, not to the sentinel as the original
claim stated. -/
theorem C3_amended (α : Type) [LinearOrder α] (a : AttributeState α)
    (data : List (Option α)) :
    (a.categorical = true → (∀ x : α, some x ∈ data → x ∈ a.bins) →
      ∃ r : List ℤ, bin_indexes a data = .ok r ∧ r.length = data.length ∧
        ∀ (k : ℕ) (hk : k < data.length) (hk2 : k < r.length),
          (data[k] = none → r[k] = (a.bins.length : ℤ)) ∧
          (∀ x : α, data[k] = some x →
            ∃ i : ℕ, r[k] = (i : ℤ) ∧
              ∃ hi : i < a.bins.length, a.bins[i] = x)) ∧
    (a.categorical = false → List.Sorted (· ≤ ·) a.bins →
      ∃ r : List ℤ, bin_indexes a data = .ok r ∧ r.length = data.length ∧
        ∀ (k : ℕ) (hk : k < data.length) (hk2 : k < r.length),
          (data[k] = none → r[k] = (a.bins.length : ℤ)) ∧
          (∀ x : α, data[k] = some x →
            ((∀ h0 : 0 < a.bins.length, x < a.bins[0]) → r[k] = -1) ∧
            (∀ h0 : 0 < a.bins.length, a.bins[0] ≤ x →
              ∃ i : ℕ, r[k] = (i : ℤ) ∧ ∃ hi : i < a.bins.length,
                a.bins[i] ≤ x ∧
                ∀ hi2 : i + 1 < a.bins.length, x < a.bins[i + 1]))) := by
  constructor
  · intro hcat hmem
    have hall : ∀ o ∈ data, binIndexOne a o = .ok
        ((fun o : Option α => match o with
          | none => (a.bins.length : ℤ)
          | some x => (((dictIndex a.bins x).getD 0 : ℕ) : ℤ)) o) := by
      intro o ho
      match o with
      | none => rfl
      | some x =>
        obtain ⟨i, hi⟩ := dictIndex_mem (hmem x ho)
        simp [binIndexOne, hcat, hi]
    have hr := mapExcept_map hall
    refine ⟨_, hr, by simp, ?_⟩
    intro k hk hk2
    constructor
    · intro hnone
      simp only [List.getElem_map, hnone]
    · intro x hx
      have hxmem : x ∈ a.bins := hmem x (by rw [← hx]; exact List.getElem_mem hk)
      obtain ⟨i, hi⟩ := dictIndex_mem hxmem
      obtain ⟨hilt, hieq⟩ := dictIndex_some hi
      refine ⟨i, ?_, hilt, hieq⟩
      simp only [List.getElem_map, hx, hi, Option.getD_some]
  · intro hcat hsort
    have hall : ∀ o ∈ data, binIndexOne a o = .ok
        ((fun o : Option α => match o with
          | none => (a.bins.length : ℤ)
          | some x => (bisect_right a.bins x : ℤ) - 1) o) := by
      intro o _
      match o with
      | none => rfl
      | some x => simp [binIndexOne, hcat]
    have hr := mapExcept_map hall
    refine ⟨_, hr, by simp, ?_⟩
    intro k hk hk2
    constructor
    · intro hnone
      simp only [List.getElem_map, hnone]
    · intro x hx
      have hspec := bisect_right_spec hsort x
      constructor
      · intro hlt
        have hz : bisect_right a.bins x = 0 := by
          by_contra hnz
          have hpos : 0 < bisect_right a.bins x := Nat.pos_of_ne_zero hnz
          have h0 : 0 < a.bins.length :=
            lt_of_lt_of_le hpos (bisect_right_le_length a.bins x)
          have hb0 := (hspec 0 h0).mpr hpos
          exact absurd hb0 (not_le.mpr (hlt h0))
        simp only [List.getElem_map, hx, hz]
        rfl
      · intro h0 hge
        have hpos : 0 < bisect_right a.bins x := (hspec 0 h0).mp hge
        have hle := bisect_right_le_length a.bins x
        have hilt : bisect_right a.bins x - 1 < a.bins.length := by omega
        refine ⟨bisect_right a.bins x - 1, ?_, hilt, ?_, ?_⟩
        · simp only [List.getElem_map, hx]
          omega
        · exact (hspec (bisect_right a.bins x - 1) hilt).mpr (by omega)
        · intro hi2
          have hnot : ¬ (a.bins[bisect_right a.bins x - 1 + 1] ≤ x) := by
            intro hcon
            have := (hspec _ hi2).mp hcon
            omega
          exact lt_of_not_le hnot

theorem C3_witness :
    (getOk (categoricalFromData AttrType.integer (id : ℚ → ℚ) id
      [1, 1, 2])).categorical = true ∧
    bin_indexes (getOk (categoricalFromData AttrType.integer (id : ℚ → ℚ) id
      [1, 1, 2])) [none] = .ok [(2 : ℤ)] ∧
    (getOk (numericNonCatFromData AttrType.integer [0, 2])).categorical = false ∧
    bin_indexes (getOk (numericNonCatFromData AttrType.integer [0, 2])) [none]
      = .ok [(20 : ℤ)] := by
  have hcat : (getOk (categoricalFromData AttrType.integer (id : ℚ → ℚ) id
      [1, 1, 2])).categorical = true := by
    with_unfolding_all decide
  have hmem : ∀ x : ℚ, some x ∈ ([none] : List (Option ℚ)) →
      x ∈ (getOk (categoricalFromData AttrType.integer (id : ℚ → ℚ) id
        [1, 1, 2])).bins := by
    intro x hx
    rcases List.mem_cons.mp hx with h | h
    · cases h
    · cases h
  obtain ⟨r, hr, hlen, hpt⟩ := (C3_amended ℚ _ [none]).1 hcat hmem
  obtain ⟨z, rfl⟩ := List.length_eq_one.mp (by simpa using hlen)
  have hz := (hpt 0 (by decide) (by simp)).1 rfl
  have hfin1 : bin_indexes (getOk (categoricalFromData AttrType.integer
      (id : ℚ → ℚ) id [1, 1, 2])) [none] = .ok [(2 : ℤ)] := by
    have h2 : (((getOk (categoricalFromData AttrType.integer (id : ℚ → ℚ) id
        [1, 1, 2])).bins.length : ℕ) : ℤ) = 2 := by
      with_unfolding_all decide
    have hzz : z = (2 : ℤ) := by
      rw [← h2]
      simpa using hz
    rw [← hzz]
    exact hr
  have hcat2 : (getOk (numericNonCatFromData AttrType.integer [0, 2])).categorical
      = false := by
    with_unfolding_all decide
  have hsort2 : List.Sorted (· ≤ ·)
      (getOk (numericNonCatFromData AttrType.integer [0, 2])).bins := by
    rw [List.Sorted]
    with_unfolding_all decide
  obtain ⟨r2, hr2, hlen2, hpt2⟩ := (C3_amended ℚ _ [none]).2 hcat2 hsort2
  obtain ⟨z2, rfl⟩ := List.length_eq_one.mp (by simpa using hlen2)
  have hz2 := (hpt2 0 (by decide) (by simp)).1 rfl
  have hfin2 : bin_indexes (getOk (numericNonCatFromData AttrType.integer [0, 2]))
      [none] = .ok [(20 : ℤ)] := by
    have h20 : (((getOk (numericNonCatFromData AttrType.integer
        [0, 2])).bins.length : ℕ) : ℤ) = 20 := by
      with_unfolding_all decide
    have hzz2 : z2 = (20 : ℤ) := by
      rw [← h20]
      simpa using hz2
    rw [← hzz2]
    exact hr2
  exact ⟨hcat, hfin1, hcat2, hfin2⟩

theorem mapExcept_isOk {f : β → Except PyError γ} {l : List β}
    (h : ∀ b ∈ l, ∃ c, f b = .ok c) : (mapExcept f l).isOk = true := by
  have h2 : ∀ b ∈ l, ∃ c, f b = .ok c ∧ True := by
    intro b hb
    obtain ⟨c, hc⟩ := h b hb
    exact ⟨c, hc, trivial⟩
  obtain ⟨cs, hcs, _⟩ := mapExcept_ok_forall h2
  rw [hcs]
  rfl

theorem choiceOne_ok {a : AttributeState ℚ} (hcat : a.categorical = false)
    (hbne : a.bins ≠ [])
    (hdec : a.type = AttrType.float → a.decimals ≠ none)
    (u : ℚ) (i : ℕ) :
    ∃ v, choiceOne a u i = .ok v := by
  have hlen0 : 0 < a.bins.length := List.length_pos.mpr hbne
  have hsamp : ∃ v0, randomSampleAt a u i = .ok v0 := by
    unfold randomSampleAt
    rw [if_neg (by simp [hcat])]
    by_cases hlt : i < a.bins.length - 1
    · rw [if_pos hlt]
      have h1 : a.bins[i]? = some (a.bins.get ⟨i, by omega⟩) :=
        List.getElem?_eq_getElem (by omega)
      have h2 : a.bins[i + 1]? = some (a.bins.get ⟨i + 1, by omega⟩) :=
        List.getElem?_eq_getElem (by omega)
      rw [h1, h2]
      exact ⟨_, rfl⟩
    · rw [if_neg hlt]
      obtain ⟨bl, hbl⟩ := Option.isSome_iff_exists.mp (List.getLast?_isSome.mpr hbne)
      rw [hbl]
      exact ⟨_, rfl⟩
  obtain ⟨v0, hv0⟩ := hsamp
  unfold choiceOne
  rw [hv0]
  cases htype : a.type with
  | float =>
    cases hd : a.decimals with
    | none => exact absurd hd (hdec htype)
    | some d => exact ⟨_, rfl⟩
  | integer => exact ⟨_, rfl⟩
  | string => exact ⟨_, rfl⟩
  | datetime => exact ⟨_, rfl⟩

/-- Claim C7: degenerate domains with `min == max` never raise.  For an
attribute built from a constant column: the histogram construction inside
`_set_distribution` succeeds (numpy widens the zero-width range instead of
dividing by it), `min` and `max` coincide, the domain-uniform `random()`
sampler takes its guarded constant branch and succeeds for every size, and
the distribution-weighted `choice()` sampler (its `np.random.choice` draw,
`_random_sample_at`, and the type post-processing) succeeds for all drawn
indices and uniform variates. -/
theorem C7_degenerate_no_failure (t : AttrType) (c : ℚ) (k : ℕ) (hk : 0 < k)
    (size : ℕ) (a : AttributeState ℚ)
    (hok : numericNonCatFromData t (List.replicate k c) = .ok a)
    (draws : List ℕ) (us : List ℚ)
    (hdraws : ∀ i ∈ draws, i < a.prs.length) :
    a.min = a.max ∧
    (randomModel a size).isOk = true ∧
    (choiceModel a draws us).isOk = true := by
  have hne : List.replicate k c ≠ [] := by
    simp only [ne_eq, List.replicate_eq_nil_iff]
    omega
  obtain ⟨a2, first, width, last, hist, hEq, hw, hlast, hf, hl, hcase1, hcase2,
    hhist, hsum, htype, hcat, hmin, hmax, hdecs, hbins, hcounts, hprs, hstep,
    hbsize, hpat⟩ := @numericNonCatFromData_spec t (List.replicate k c) hne
  have ha : a = a2 := Except.ok.inj (hok.symm.trans hEq)
  subst ha
  have hminx := seriesMin_replicate hk c
  have hmaxx := seriesMax_replicate hk c
  have hdeg : a.min = a.max := by
    rw [hmin, hmax, hminx, hmaxx]
  have hsne : hist.sum ≠ 0 := by
    rw [hsum]
    simp only [List.length_replicate]
    omega
  refine ⟨hdeg, ?_, ?_⟩
  · unfold randomModel
    rw [if_pos hdeg, htype]
    cases t <;> rfl
  · have hnn : ∀ q ∈ a.prs, 0 ≤ q := by
      rw [hprs]
      intro q hq
      exact normalize_mem_nonneg hq
    have hsum1 : a.prs.sum = 1 := by
      rw [hprs]
      exact normalize_sum_one hsne
    have hall : a.prs.all (fun q => decide (0 ≤ q)) = true := by
      rw [List.all_eq_true]
      intro q hq
      simpa using hnn q hq
    have hchoice : npRandomChoice a.prs.length a.prs draws = .ok draws := by
      unfold npRandomChoice
      rw [if_neg (not_not_intro rfl), if_neg (not_not_intro hall),
        if_neg (not_not_intro hsum1)]
    unfold choiceModel
    rw [hchoice]
    apply mapExcept_isOk
    intro p hp
    have hbinslen : a.bins.length = DEFAULT_BIN_SIZE := by
      rw [hbins]
      simp
    have hbne : a.bins ≠ [] := by
      apply List.length_pos.mp
      rw [hbinslen]
      norm_num [DEFAULT_BIN_SIZE]
    have hdecok : a.type = AttrType.float → a.decimals ≠ none := by
      intro hft
      rw [htype] at hft
      rw [hdecs, hft]
      simp
    exact choiceOne_ok hcat hbne hdecok p.2 p.1

theorem uniformDraw_bounds_minmax {lo hi u : ℚ} (hu0 : 0 ≤ u) (hu1 : u ≤ 1) :
    min lo hi ≤ uniformDraw lo hi u ∧ uniformDraw lo hi u ≤ max lo hi := by
  rcases le_total lo hi with h | h
  · have hb := uniformDraw_bounds h hu0 hu1
    exact ⟨le_trans (min_le_left _ _) hb.1, le_trans hb.2 (le_max_right _ _)⟩
  · unfold uniformDraw
    constructor
    · have hm : min lo hi = hi := min_eq_right h
      rw [hm]
      nlinarith
    · have hm : max lo hi = lo := max_eq_left h
      rw [hm]
      nlinarith

theorem bins_getElem_edges {a : AttributeState ℚ} {first width : ℚ}
    (hbins : a.bins = (List.range DEFAULT_BIN_SIZE).map
      (fun i : ℕ => first + width * (i : ℚ)))
    {i : ℕ} (hi : i < DEFAULT_BIN_SIZE) :
    ∃ h : i < a.bins.length, a.bins.get ⟨i, h⟩ = first + width * (i : ℚ) := by
  have hlen : a.bins.length = DEFAULT_BIN_SIZE := by
    rw [hbins]
    simp
  refine ⟨by omega, ?_⟩
  simp only [List.get_eq_getElem, hbins, List.getElem_map, List.getElem_range]

theorem randomSampleAt_nonCat_spec {a : AttributeState ℚ} {data : List ℚ}
    {first width last : ℚ} {hist : List ℕ}
    (hcat : a.categorical = false)
    (hw : 0 < width)
    (hbins : a.bins = (List.range DEFAULT_BIN_SIZE).map
      (fun i : ℕ => first + width * (i : ℚ)))
    (hhist : hist = (List.range DEFAULT_BIN_SIZE).map
      (fun i => data.countP (binPred first width last DEFAULT_BIN_SIZE i)))
    (hprs : a.prs = hist.map (fun c : ℕ => (c : ℚ) / ((hist.sum : ℕ) : ℚ)))
    {index : ℕ} (hpos : 0 < a.prs.getD index 0)
    {u : ℚ} (hu0 : 0 ≤ u) (hu1 : u ≤ 1) :
    ∃ v0 w0, randomSampleAt a u index = .ok v0 ∧ w0 ∈ data ∧
      binPred first width last DEFAULT_BIN_SIZE index w0 = true ∧
      index < DEFAULT_BIN_SIZE ∧
      ((index < DEFAULT_BIN_SIZE - 1 ∧
          first + width * (index : ℚ) ≤ v0 ∧
          v0 ≤ first + width * ((index : ℚ) + 1)) ∨
        (index = DEFAULT_BIN_SIZE - 1 ∧
          min (first + width * (index : ℚ)) a.max ≤ v0 ∧
          v0 ≤ max (first + width * (index : ℚ)) a.max)) := by
  have hblen : a.bins.length = DEFAULT_BIN_SIZE := by
    rw [hbins]
    simp
  have hhlen : hist.length = DEFAULT_BIN_SIZE := by
    rw [hhist]
    simp
  have hplen : a.prs.length = DEFAULT_BIN_SIZE := by
    rw [hprs]
    simp [hhlen]
  have hidx : index < DEFAULT_BIN_SIZE := by
    by_contra hc
    have hge : a.prs.length ≤ index := by omega
    rw [List.getD_eq_default] at hpos
    · exact absurd hpos (lt_irrefl 0)
    · exact hge
  have hip : index < a.prs.length := by omega
  have hih : index < hist.length := by omega
  have hpe : a.prs.getD index 0 = a.prs.get ⟨index, hip⟩ :=
    List.getD_eq_getElem a.prs 0 hip
  have hhistidx : hist.get ⟨index, hih⟩
      = data.countP (binPred first width last DEFAULT_BIN_SIZE index) := by
    simp only [List.get_eq_getElem, hhist, List.getElem_map, List.getElem_range]
  have hcpos : 0 < data.countP (binPred first width last DEFAULT_BIN_SIZE index) := by
    rw [hpe] at hpos
    have h2 : a.prs.get ⟨index, hip⟩
        = ((hist.get ⟨index, hih⟩ : ℕ) : ℚ) / ((hist.sum : ℕ) : ℚ) := by
      simp only [List.get_eq_getElem, hprs, List.getElem_map]
    rw [h2] at hpos
    rw [← hhistidx]
    by_contra hc
    have hz : hist.get ⟨index, hih⟩ = 0 := by omega
    rw [hz] at hpos
    simp at hpos
  obtain ⟨w0, hw0mem, hw0p⟩ := List.countP_pos.mp hcpos
  obtain ⟨hib, hedge⟩ := bins_getElem_edges hbins hidx
  by_cases hlt : index < DEFAULT_BIN_SIZE - 1
  · obtain ⟨hib2, hedge2⟩ := @bins_getElem_edges a first width hbins (index + 1)
      (by omega)
    have hsamp : randomSampleAt a u index
        = .ok (uniformDraw (first + width * (index : ℚ))
            (first + width * ((index : ℚ) + 1)) u) := by
      unfold randomSampleAt
      rw [if_neg (by simp [hcat]), if_pos (by omega)]
      rw [List.getElem?_eq_getElem hib, List.getElem?_eq_getElem hib2]
      have e1 : a.bins[index] = first + width * (index : ℚ) := hedge
      have e2 : a.bins[index + 1]
          = first + width * ((index : ℚ) + 1) := by
        have h := hedge2
        push_cast at h
        exact h
      rw [e1, e2]
    have hbnd := @uniformDraw_bounds (first + width * (index : ℚ))
      (first + width * ((index : ℚ) + 1)) u (by nlinarith) hu0 hu1
    exact ⟨_, w0, hsamp, hw0mem, hw0p, hidx, Or.inl ⟨hlt, hbnd.1, hbnd.2⟩⟩
  · have hieq : index = DEFAULT_BIN_SIZE - 1 := by omega
    have hlast? : a.bins.getLast? = some (first + width * (index : ℚ)) := by
      rw [List.getLast?_eq_getElem?, hblen]
      have : DEFAULT_BIN_SIZE - 1 = index := hieq.symm
      rw [this, List.getElem?_eq_getElem hib]
      exact congrArg some hedge
    have hsamp : randomSampleAt a u index
        = .ok (uniformDraw (first + width * (index : ℚ)) a.max u) := by
      unfold randomSampleAt
      rw [if_neg (by simp [hcat]), if_neg (by omega), hlast?]
    have hbnd := @uniformDraw_bounds_minmax (first + width * (index : ℚ))
      a.max u hu0 hu1
    exact ⟨_, w0, hsamp, hw0mem, hw0p, hidx, Or.inr ⟨hieq, hbnd.1, hbnd.2⟩⟩

theorem randomSampleAtCat_mem {a : AttributeState α} {index : ℕ}
    (hidx : index < a.bins.length) :
    ∃ v, randomSampleAtCat a index = .ok v ∧ v ∈ a.bins := by
  unfold randomSampleAtCat
  rw [List.getElem?_eq_getElem hidx]
  exact ⟨_, rfl, List.getElem_mem hidx⟩

theorem choiceOne_cat_integer_mem {a : AttributeState ℚ}
    (hcat : a.categorical = true) (htype : a.type = AttrType.integer)
    (hwhole : ∀ b ∈ a.bins, ∃ z : ℤ, b = (z : ℚ))
    {index : ℕ} (hidx : index < a.bins.length) (u : ℚ) :
    ∃ v, choiceOne a u index = .ok v ∧ v ∈ a.bins := by
  have hsamp : randomSampleAt a u index = .ok a.bins[index] := by
    unfold randomSampleAt
    rw [if_pos (by simp [hcat]), List.getElem?_eq_getElem hidx]
  unfold choiceOne
  rw [hsamp, htype]
  obtain ⟨z, hz⟩ := hwhole _ (List.getElem_mem hidx)
  refine ⟨_, rfl, ?_⟩
  have hfix : ((roundHalfEven a.bins[index] : ℤ) : ℚ)
      = a.bins[index] := by
    rw [hz, roundHalfEven_intCast]
  rw [hfix]
  exact List.getElem_mem hidx

theorem choiceOne_integer_nonCat_in_domain {data : List ℚ}
    (hne : data ≠ [])
    (hwhole : ∀ v ∈ data, ∃ z : ℤ, v = (z : ℚ))
    {a : AttributeState ℚ}
    (hok : numericNonCatFromData AttrType.integer data = .ok a)
    {index : ℕ} (hpos : 0 < a.prs.getD index 0)
    {u : ℚ} (hu0 : 0 ≤ u) (hu1 : u ≤ 1) :
    ∃ v, choiceOne a u index = .ok v ∧ a.min ≤ v ∧ v ≤ a.max := by
  obtain ⟨a2, first, width, last, hist, hEq, hw, hlast, hf, hl, hcase1, hcase2,
    hhist, hsum, htype, hcat, hamin, hamax, hdec, hbins, hcnts, hprs, hstep,
    hbsz, hgen⟩ := @numericNonCatFromData_spec AttrType.integer data hne
  rw [hok] at hEq
  simp only [Except.ok.injEq] at hEq
  subst hEq
  obtain ⟨zmn, hzmn⟩ := hwhole _ (seriesMin_mem hne)
  obtain ⟨zmx, hzmx⟩ := hwhole _ (seriesMax_mem hne)
  have hamin2 : a.min = seriesMin data := by
    rw [hamin, if_pos rfl, hzmn, pyInt_intCast]
  have hamax2 : a.max = seriesMax data := by
    rw [hamax, if_pos rfl, hzmx, pyInt_intCast]
  obtain ⟨v0, w0, hsamp, hw0mem, hw0p, hidx, hbranch⟩ :=
    randomSampleAt_nonCat_spec hcat hw hbins hhist hprs hpos hu0 hu1
  have hmmle : seriesMin data ≤ seriesMax data := seriesMin_le_seriesMax hne
  have hbound : a.min ≤ ((roundHalfEven v0 : ℤ) : ℚ) ∧
      ((roundHalfEven v0 : ℤ) : ℚ) ≤ a.max := by
    rcases lt_or_eq_of_le hmmle with hltmm | heqmm
    · obtain ⟨hfirst, hlastmx⟩ := hcase1 hltmm
      have hv0 : seriesMin data ≤ v0 ∧ v0 ≤ seriesMax data := by
        rcases hbranch with ⟨hlt19, h1, h2⟩ | ⟨heq19, h1, h2⟩
        · constructor
          · have hnn : (0 : ℚ) ≤ width * (index : ℚ) :=
              mul_nonneg hw.le (Nat.cast_nonneg index)
            linarith
          · have hc : ((index : ℚ) + 1) ≤ (DEFAULT_BIN_SIZE : ℚ) := by
              have h3 := Nat.succ_le_of_lt hidx
              exact_mod_cast h3
            have hmul : width * ((index : ℚ) + 1)
                ≤ width * (DEFAULT_BIN_SIZE : ℚ) :=
              mul_le_mul_of_nonneg_left hc hw.le
            linarith
        · have hnn : (0 : ℚ) ≤ width * (index : ℚ) :=
            mul_nonneg hw.le (Nat.cast_nonneg index)
          have hcc : ((index : ℚ)) ≤ (DEFAULT_BIN_SIZE : ℚ) := by
            have h3 := le_of_lt hidx
            exact_mod_cast h3
          have hmul : width * ((index : ℚ))
              ≤ width * (DEFAULT_BIN_SIZE : ℚ) :=
            mul_le_mul_of_nonneg_left hcc hw.le
          constructor
          · refine le_trans (le_min (by linarith) ?_) h1
            rw [hamax2]
            exact hmmle
          · refine le_trans h2 (max_le (by linarith) ?_)
            rw [hamax2]
      have hr1 : zmn ≤ roundHalfEven v0 := by
        rw [← roundHalfEven_intCast zmn]
        refine roundHalfEven_mono ?_
        rw [← hzmn]
        exact hv0.1
      have hr2 : roundHalfEven v0 ≤ zmx := by
        rw [← roundHalfEven_intCast zmx]
        refine roundHalfEven_mono ?_
        rw [← hzmx]
        exact hv0.2
      constructor
      · rw [hamin2, hzmn]
        exact_mod_cast hr1
      · rw [hamax2, hzmx]
        exact_mod_cast hr2
    · obtain ⟨hfirst, hlast2⟩ := hcase2 heqmm
      have hw20 : width = 1/20 := by
        have h20 : ((DEFAULT_BIN_SIZE : ℕ) : ℚ) = 20 := by
          norm_num [DEFAULT_BIN_SIZE]
        rw [h20] at hlast
        linarith
      have hw0eq : w0 = seriesMin data := by
        refine le_antisymm ?_ (seriesMin_le hw0mem)
        rw [heqmm]
        exact le_seriesMax hw0mem
      have hw0p2 := hw0p
      unfold binPred at hw0p2
      rw [Bool.and_eq_true, decide_eq_true_eq] at hw0p2
      obtain ⟨hlow, hif⟩ := hw0p2
      rw [hw0eq] at hlow
      by_cases h19 : index = DEFAULT_BIN_SIZE - 1
      · exfalso
        rw [h19] at hlow
        have hc19 : (((DEFAULT_BIN_SIZE - 1 : ℕ)) : ℚ) = 19 := by
          norm_num [DEFAULT_BIN_SIZE]
        rw [hc19] at hlow
        linarith
      · rw [if_neg h19, decide_eq_true_eq] at hif
        rw [hw0eq] at hif
        push_cast at hif
        rcases hbranch with ⟨hlt19, h1, h2⟩ | ⟨heq19, h1, h2⟩
        · have hring : first + width * ((index : ℚ) + 1)
              = first + width * (index : ℚ) + width := by ring
          rw [hring] at hif h2
          have close1 : (zmn : ℚ) - 1/2 < v0 := by
            rw [← hzmn]
            linarith
          have close2 : v0 < (zmn : ℚ) + 1/2 := by
            rw [← hzmn]
            linarith
          have hclose := roundHalfEven_of_close close1 close2
          constructor
          · rw [hamin2, hzmn, hclose]
          · rw [hamax2, ← heqmm, hzmn, hclose]
        · exact absurd heq19 h19
  unfold choiceOne
  rw [hsamp, htype]
  exact ⟨_, rfl, hbound.1, hbound.2⟩

theorem choiceOne_datetime_nonCat_in_domain {data : List ℚ}
    (hne : data ≠ [])
    (hltmm : seriesMin data < seriesMax data)
    {a : AttributeState ℚ}
    (hok : numericNonCatFromData AttrType.datetime data = .ok a)
    {index : ℕ} (hpos : 0 < a.prs.getD index 0)
    {u : ℚ} (hu0 : 0 ≤ u) (hu1 : u ≤ 1) :
    ∃ v, choiceOne a u index = .ok v ∧ a.min ≤ v ∧ v ≤ a.max := by
  obtain ⟨a2, first, width, last, hist, hEq, hw, hlast, hf, hl, hcase1, hcase2,
    hhist, hsum, htype, hcat, hamin, hamax, hdec, hbins, hcnts, hprs, hstep,
    hbsz, hgen⟩ := @numericNonCatFromData_spec AttrType.datetime data hne
  rw [hok] at hEq
  simp only [Except.ok.injEq] at hEq
  subst hEq
  have hamin2 : a.min = seriesMin data := by
    rw [hamin, if_neg (by decide)]
  have hamax2 : a.max = seriesMax data := by
    rw [hamax, if_neg (by decide)]
  obtain ⟨v0, w0, hsamp, hw0mem, hw0p, hidx, hbranch⟩ :=
    randomSampleAt_nonCat_spec hcat hw hbins hhist hprs hpos hu0 hu1
  obtain ⟨hfirst, hlastmx⟩ := hcase1 hltmm
  have hv0 : seriesMin data ≤ v0 ∧ v0 ≤ seriesMax data := by
    rcases hbranch with ⟨hlt19, h1, h2⟩ | ⟨heq19, h1, h2⟩
    · constructor
      · have hnn : (0 : ℚ) ≤ width * (index : ℚ) :=
          mul_nonneg hw.le (Nat.cast_nonneg index)
        linarith
      · have hc : ((index : ℚ) + 1) ≤ (DEFAULT_BIN_SIZE : ℚ) := by
          have h3 := Nat.succ_le_of_lt hidx
          exact_mod_cast h3
        have hmul : width * ((index : ℚ) + 1)
            ≤ width * (DEFAULT_BIN_SIZE : ℚ) :=
          mul_le_mul_of_nonneg_left hc hw.le
        linarith
    · have hnn : (0 : ℚ) ≤ width * (index : ℚ) :=
        mul_nonneg hw.le (Nat.cast_nonneg index)
      have hcc : ((index : ℚ)) ≤ (DEFAULT_BIN_SIZE : ℚ) := by
        have h3 := le_of_lt hidx
        exact_mod_cast h3
      have hmul : width * ((index : ℚ))
          ≤ width * (DEFAULT_BIN_SIZE : ℚ) :=
        mul_le_mul_of_nonneg_left hcc hw.le
      constructor
      · refine le_trans (le_min (by linarith) ?_) h1
        rw [hamax2]
        exact le_of_lt hltmm
      · refine le_trans h2 (max_le (by linarith) ?_)
        rw [hamax2]
  unfold choiceOne
  rw [hsamp, htype]
  refine ⟨_, rfl, ?_, ?_⟩
  · rw [hamin2]
    exact hv0.1
  · rw [hamax2]
    exact hv0.2

theorem C7_witness :
    (0 : ℕ) < 2 ∧
    (numericNonCatFromData AttrType.float (List.replicate 2 (3/2))).isOk = true ∧
    (getOk (numericNonCatFromData AttrType.float (List.replicate 2 (3/2)))).min
      = (getOk (numericNonCatFromData AttrType.float (List.replicate 2 (3/2)))).max ∧
    (randomModel (getOk (numericNonCatFromData AttrType.float
      (List.replicate 2 (3/2)))) 3).isOk = true ∧
    (choiceModel (getOk (numericNonCatFromData AttrType.float
      (List.replicate 2 (3/2)))) [10] [1/2]).isOk = true := by
  have hok : (numericNonCatFromData AttrType.float (List.replicate 2 (3/2))).isOk
      = true := by
    with_unfolding_all decide
  have hdraws : ∀ i ∈ [10], i < (getOk (numericNonCatFromData AttrType.float
      (List.replicate 2 (3/2)))).prs.length := by
    intro i hi
    rcases List.mem_cons.mp hi with rfl | hi
    · with_unfolding_all decide
    · cases hi
  have h := C7_degenerate_no_failure AttrType.float (3/2) 2 (by decide) 3 _
    (getOk_spec hok) [10] [1/2] hdraws
  exact ⟨by decide, hok, h.1, h.2.1, h.2.2⟩

set_option maxRecDepth 100000 in
/-- Claim C8 counterexample: synthesis does NOT always stay in-domain.  For a
categorical float attribute, `choice` rounds every sampled category value to
the learned `_decimals` (line 406) even though the sample is already an exact
category.  On the data `[1.5, 1.5, 1.5, 1.5, 1.5, 1.123]` the 80%-quantile
rule of `decimals()` learns 1 decimal place, so the drawn category `1.123`
is returned as `1.1`, which is not one of the categories in `bins`. -/
theorem C8_counterexample :
    ∃ a : AttributeState ℚ,
      categoricalFromData AttrType.float id id
        [3/2, 3/2, 3/2, 3/2, 3/2, 1123/1000] = .ok a ∧
      a.categorical = true ∧
      choiceOne a 0 0 = .ok (11/10) ∧
      (11/10 : ℚ) ∉ a.bins := by
  refine ⟨getOk (categoricalFromData AttrType.float id id
    [3/2, 3/2, 3/2, 3/2, 3/2, 1123/1000]), ?_, ?_, ?_, ?_⟩
  · with_unfolding_all decide
  · with_unfolding_all decide
  · with_unfolding_all decide
  · with_unfolding_all decide

/-- Claim C8 (amended): synthesis stays in-domain for every type except
float.  (1) For a categorical string attribute, every sampled value is one of
the categories in `bins` (the string branch, lines 409-411, leaves
categorical samples untouched).  (2) For a categorical integer attribute
whose values are whole numbers, the `round().astype(int)` post-processing
(line 408) fixes every category, so every sampled value is in `bins`.
(3) For a non-categorical integer attribute with whole-numbered data, every
value produced by `choice` from a positive-probability bin with a uniform
variate in `[0, 1]` lies in `[min, max]`: interior histogram bins sit inside
the edge range, the last bin is clamped to `_max`, and when `min == max` the
widened histogram keeps samples within half a unit of the common value, which
integer rounding sends back exactly to it.  (4) For a non-categorical
datetime attribute with `min < max`, the sampled epoch value lies in
`[min, max]` (when `min == max` the widened histogram can leak by up to half
a bin width, and for float the `_decimals` rounding can leave the domain, as
the counterexample shows). -/
theorem C8_amended :
    (∀ (data : List String) (a : AttributeState String),
      categoricalFromData AttrType.string
        (fun s : String => ((s.length : ℕ) : ℚ))
        (fun s : String => ((s.length : ℕ) : ℚ)) data = .ok a →
      ∀ index : ℕ, index < a.bins.length →
      ∃ v, randomSampleAtCat a index = .ok v ∧ v ∈ a.bins) ∧
    (∀ (data : List ℚ) (a : AttributeState ℚ),
      (∀ v ∈ data, ∃ z : ℤ, v = (z : ℚ)) →
      categoricalFromData AttrType.integer id id data = .ok a →
      ∀ index : ℕ, index < a.bins.length → ∀ u : ℚ,
      ∃ v, choiceOne a u index = .ok v ∧ v ∈ a.bins) ∧
    (∀ (data : List ℚ) (a : AttributeState ℚ),
      data ≠ [] →
      (∀ v ∈ data, ∃ z : ℤ, v = (z : ℚ)) →
      numericNonCatFromData AttrType.integer data = .ok a →
      ∀ index : ℕ, 0 < a.prs.getD index 0 → ∀ u : ℚ, 0 ≤ u → u ≤ 1 →
      ∃ v, choiceOne a u index = .ok v ∧ a.min ≤ v ∧ v ≤ a.max) ∧
    (∀ (data : List ℚ) (a : AttributeState ℚ),
      data ≠ [] →
      seriesMin data < seriesMax data →
      numericNonCatFromData AttrType.datetime data = .ok a →
      ∀ index : ℕ, 0 < a.prs.getD index 0 → ∀ u : ℚ, 0 ≤ u → u ≤ 1 →
      ∃ v, choiceOne a u index = .ok v ∧ a.min ≤ v ∧ v ≤ a.max) := by
  refine ⟨?_, ?_, ?_, ?_⟩
  · intro data a hok index hidx
    exact randomSampleAtCat_mem hidx
  · intro data a hwhole hok index hidx u
    have hne : data ≠ [] := by
      intro hc
      rw [hc] at hok
      simp [categoricalFromData] at hok
    obtain ⟨a2, hEq, htype, hcat, -, -, hmem, -, -, -, -, -, -, -, -, -, -⟩ :=
      @categoricalFromData_spec _ _ AttrType.integer id id data hne
    rw [hok] at hEq
    simp only [Except.ok.injEq] at hEq
    subst hEq
    have hbw : ∀ b ∈ a.bins, ∃ z : ℤ, b = (z : ℚ) := by
      intro b hb
      exact hwhole b ((hmem b).mp hb)
    exact choiceOne_cat_integer_mem hcat htype hbw hidx u
  · intro data a hne hwhole hok index hpos u hu0 hu1
    exact choiceOne_integer_nonCat_in_domain hne hwhole hok hpos hu0 hu1
  · intro data a hne hlt hok index hpos u hu0 hu1
    exact choiceOne_datetime_nonCat_in_domain hne hlt hok hpos hu0 hu1

/-- Concrete instances of the four amended guarantees: a two-category string
attribute, a categorical integer attribute over whole values, and integer
and datetime histogram attributes over `[0, 10]` sampled at bin 0 with
`u = 1/2`. -/
theorem C8_witness :
    (∃ v, randomSampleAtCat (getOk (categoricalFromData AttrType.string
        (fun s : String => ((s.length : ℕ) : ℚ))
        (fun s : String => ((s.length : ℕ) : ℚ))
        (String.mk [Char.ofNat 97] :: String.mk [Char.ofNat 98] :: []))) 0
        = .ok v ∧
      v ∈ (getOk (categoricalFromData AttrType.string
        (fun s : String => ((s.length : ℕ) : ℚ))
        (fun s : String => ((s.length : ℕ) : ℚ))
        (String.mk [Char.ofNat 97] :: String.mk [Char.ofNat 98] :: []))).bins) ∧
    (∃ v, choiceOne (getOk (categoricalFromData AttrType.integer id id
        [(2 : ℚ), 3, 3])) 0 0 = .ok v ∧
      v ∈ (getOk (categoricalFromData AttrType.integer id id
        [(2 : ℚ), 3, 3])).bins) ∧
    (∃ v, choiceOne (getOk (numericNonCatFromData AttrType.integer
        [(0 : ℚ), 10])) (1/2) 0 = .ok v ∧
      (getOk (numericNonCatFromData AttrType.integer [(0 : ℚ), 10])).min ≤ v ∧
      v ≤ (getOk (numericNonCatFromData AttrType.integer [(0 : ℚ), 10])).max) ∧
    (∃ v, choiceOne (getOk (numericNonCatFromData AttrType.datetime
        [(0 : ℚ), 10])) (1/2) 0 = .ok v ∧
      (getOk (numericNonCatFromData AttrType.datetime [(0 : ℚ), 10])).min ≤ v ∧
      v ≤ (getOk (numericNonCatFromData AttrType.datetime
        [(0 : ℚ), 10])).max) := by
  have hwh : ∀ v ∈ [(2 : ℚ), 3, 3], ∃ z : ℤ, v = (z : ℚ) := by
    intro v hv
    rcases List.mem_cons.mp hv with rfl | hv
    · exact ⟨2, by norm_num⟩
    rcases List.mem_cons.mp hv with rfl | hv
    · exact ⟨3, by norm_num⟩
    rcases List.mem_cons.mp hv with rfl | hv
    · exact ⟨3, by norm_num⟩
    cases hv
  have hwh2 : ∀ v ∈ [(0 : ℚ), 10], ∃ z : ℤ, v = (z : ℚ) := by
    intro v hv
    rcases List.mem_cons.mp hv with rfl | hv
    · exact ⟨0, by norm_num⟩
    rcases List.mem_cons.mp hv with rfl | hv
    · exact ⟨10, by norm_num⟩
    cases hv
  refine ⟨?_, ?_, ?_, ?_⟩
  · exact C8_amended.1 _ _ (getOk_spec (by with_unfolding_all decide)) 0
      (by with_unfolding_all decide)
  · exact C8_amended.2.1 _ _ hwh (getOk_spec (by with_unfolding_all decide)) 0
      (by with_unfolding_all decide) 0
  · exact C8_amended.2.2.1 _ _ (by with_unfolding_all decide) hwh2
      (getOk_spec (by with_unfolding_all decide)) 0
      (by with_unfolding_all decide) (1/2)
      (by norm_num) (by norm_num)
  · exact C8_amended.2.2.2 _ _ (by with_unfolding_all decide)
      (by with_unfolding_all decide)
      (getOk_spec (by with_unfolding_all decide)) 0
      (by with_unfolding_all decide) (1/2)
      (by norm_num) (by norm_num)

end Ds4ml
